import Mathlib

/-!
Shallow embedding of the vue-sfc-to-tsx conversion engine, for checking the
natural-language specification against the code.

Strings from the TypeScript source are modelled as `List Char`; JavaScript
string indices become `Nat` indices into that list.  Regular-expression steps
from the source are translated into explicit deterministic scanners that follow
the engine's greedy/backtracking behaviour, documented at each definition.
Bounded `while` loops from the source are translated with an explicit `fuel`
argument that is always called with more fuel than the loop can consume.
-/

/-- Character class of JavaScript's regex `\w`, i.e. `[A-Za-z0-9_]`. -/
def isWordChar (c : Char) : Bool := c.isAlpha || c.isDigit || c = '_'

/-- Character class of JavaScript's regex `\s` (common whitespace characters;
the rare exotic Unicode space characters are not modelled). -/
def isSpaceChar (c : Char) : Bool :=
  c = ' ' || c = '\t' || c = '\n' || c = '\r' || c = '\x0b' || c = '\x0c'

/-- Character class of the literal regex set `[ \t]`. -/
def isTabSpace (c : Char) : Bool := c = ' ' || c = '\t'

/-- Character class of the lookbehind set `[.\w]` used by the rewriters. -/
def isWordDot (c : Char) : Bool := isWordChar c || c = '.'

/-- Length of the maximal run of characters satisfying `p` at the head of `s`
(the match length of a greedy `p*`). -/
def runLength (p : Char → Bool) (s : List Char) : Nat := (s.takeWhile p).length

/-- JavaScript `String.prototype.trim` over the modelled whitespace class. -/
def trimBoth (s : List Char) : List Char :=
  ((s.dropWhile isSpaceChar).reverse.dropWhile isSpaceChar).reverse

/-- Walk back from index `i` to the beginning of the line containing it:
`while (start > 0 && content[start - 1] !== '\n') start--`. -/
def lineStart (s : List Char) (i : Nat) : Nat :=
  i - runLength (fun c => c ≠ '\n') ((s.take i).reverse)

/-- Truthiness of an optional JavaScript string: `undefined` and `""` are
falsy, every other string is truthy. -/
def jsTruthyStrOpt (o : Option (List Char)) : Bool :=
  match o with
  | some t => t ≠ []
  | none => false

/-- Mirror of `if (x) field = x` record-field assignment: an empty string is
falsy and leaves the field unset. -/
def optTruthy (o : Option (List Char)) : Option (List Char) :=
  match o with
  | some t => if t = [] then none else some t
  | none => none

/-- Loop of `matchBalanced` (src/script/macros.ts): starting with `depth` and
index `i`, scan while `i < str.length && depth > 0`, incrementing the depth at
`open`, decrementing it at `close`, and stopping (returning the index of the
closing character) as soon as the depth reaches zero. -/
def mbLoop (s : List Char) (o c : Char) (depth i fuel : Nat) : Option Nat :=
  match fuel with
  | 0 => none
  | fuel + 1 =>
    if i < s.length ∧ 0 < depth then
      let ch := s.getD i ' '
      let depth' := if ch = o then depth + 1 else if ch = c then depth - 1 else depth
      if depth' = 0 then some i else mbLoop s o c depth' (i + 1) fuel
    else if depth = 0 then some i else none

/-- `matchBalanced(str, startIdx, open, close)` from src/script/macros.ts:
match balanced content starting from the given character, returning the content
between the delimiters (exclusive) and the end index (inclusive), or `none`
when the delimiters stay unbalanced to the end of the text.  Note that only
the one `open`/`close` pair passed in is counted. -/
def matchBalanced (s : List Char) (startIdx : Nat) (o c : Char) :
    Option (List Char × Nat) :=
  if startIdx < s.length ∧ s.getD startIdx ' ' = o then
    match mbLoop s o c 1 (startIdx + 1) (s.length + 1) with
    | some i => some ((s.take i).drop (startIdx + 1), i)
    | none => none
  else none

/-- Match of the regex fragment `(?:const|let|var)\s+\w+\s*=\s*` at index `p`;
on success returns the index right after the final `\s*` (where the macro name
must start).  The three keywords start with distinct letters and the runs are
separated by disjoint character classes, so the greedy match is deterministic. -/
def matchDeclKw (s : List Char) (p : Nat) : Option Nat :=
  let kwLen : Option Nat :=
    if "const".toList.isPrefixOf (s.drop p) then some 5
    else if "let".toList.isPrefixOf (s.drop p) then some 3
    else if "var".toList.isPrefixOf (s.drop p) then some 3
    else none
  match kwLen with
  | none => none
  | some k =>
    let p1 := p + k
    let w1 := runLength isSpaceChar (s.drop p1)
    if w1 = 0 then none
    else
      let p2 := p1 + w1
      let w2 := runLength isWordChar (s.drop p2)
      if w2 = 0 then none
      else
        let p3 := p2 + w2
        let p4 := p3 + runLength isSpaceChar (s.drop p3)
        if s.getD p4 '\x00' = '=' then
          let p5 := p4 + 1
          some (p5 + runLength isSpaceChar (s.drop p5))
        else none

/-- Global-regex search for `(?:(?:const|let|var)\s+\w+\s*=\s*)?NAME` starting
at `start`: the leftmost match position wins, and at a given position the
optional declaration prefix is tried before the bare name (regex alternation
order).  Returns `(matchIndex, matchEnd)`. -/
def findMacroSearch (s nm : List Char) (start fuel : Nat) : Option (Nat × Nat) :=
  match fuel with
  | 0 => none
  | fuel + 1 =>
    if start < s.length then
      match matchDeclKw s start with
      | some q =>
        if nm.isPrefixOf (s.drop q) then some (start, q + nm.length)
        else if nm.isPrefixOf (s.drop start) then some (start, start + nm.length)
        else findMacroSearch s nm (start + 1) fuel
      | none =>
        if nm.isPrefixOf (s.drop start) then some (start, start + nm.length)
        else findMacroSearch s nm (start + 1) fuel
    else none

/-- Result of `findMacro` (src/script/macros.ts): the full statement range and
the extracted type parameter / runtime argument.  The source's `end` field is
named `stop` here because `end` is reserved in Lean. -/
structure MacroFind where
  start : Nat
  stop : Nat
  typeParam : Option (List Char)
  runtimeArg : Option (List Char)
deriving DecidableEq, Repr

/-- Body of one iteration of `findMacro`'s match loop, for the match spanning
`[mStart, mEnd)` (with `mEnd` the position right after the macro name): consume
an optional balanced `<...>` type argument, require a balanced `(...)` runtime
argument, record the trimmed runtime argument only when the type parameter is
falsy, and extend the range to the whole statement (line start through optional
trailing semicolon/newline).  Returns `none` when this occurrence does not
complete a match (the loop then continues from `mEnd`).  `macroRecord` builds
the success record once the runtime-argument parentheses have been balanced:
the trimmed argument is recorded only when nonempty and the type parameter is
falsy, and the range is extended past trailing spaces, an optional semicolon,
and an optional newline, starting from the line start. -/
def macroRecord (s : List Char) (mStart : Nat) (typeParam : Option (List Char))
    (pr : List Char × Nat) : MacroFind :=
  let argContent := trimBoth pr.1
  let runtimeArg :=
    if argContent ≠ [] ∧ ¬ jsTruthyStrOpt typeParam then some argContent else none
  let e0 := pr.2 + 1
  let e1 := e0 + runLength isTabSpace (s.drop e0)
  let e2 := if s.getD e1 '\x00' = ';' then e1 + 1 else e1
  let e3 := if s.getD e2 '\x00' = '\n' then e2 + 1 else e2
  ⟨lineStart s mStart, e3, typeParam, runtimeArg⟩

/-- Continuation of `macroRecord`: see `macroAtMatch`. -/
def macroAtMatch (s : List Char) (mStart mEnd : Nat) : Option MacroFind :=
  let tp := if s.getD mEnd '\x00' = '<' then matchBalanced s mEnd '<' '>' else none
  let typeParam : Option (List Char) := tp.map (·.1)
  let pos1 := match tp with
    | some r => r.2 + 1
    | none => mEnd
  if s.getD pos1 '\x00' = '(' then
    match matchBalanced s pos1 '(' ')' with
    | some pr => some (macroRecord s mStart typeParam pr)
    | none => none
  else none

/-- Match loop of `findMacro`: repeatedly find the next regex match and try to
complete it; on failure continue the search after the matched name (the JS
`continue` resumes `exec` at `lastIndex`). -/
def findMacroLoop (s nm : List Char) (cursor fuel : Nat) : Option MacroFind :=
  match fuel with
  | 0 => none
  | fuel + 1 =>
    match findMacroSearch s nm cursor (s.length + 1) with
    | none => none
    | some (mStart, mEnd) =>
      match macroAtMatch s mStart mEnd with
      | some r => some r
      | none => findMacroLoop s nm mEnd fuel

/-- `findMacro(content, macroName)` from src/script/macros.ts: find a macro
call in the source, potentially prefixed with `const <name> = `, returning the
full match range and the extracted info, or `none` when no occurrence completes
a balanced match. -/
def findMacro (s nm : List Char) : Option MacroFind :=
  findMacroLoop s nm 0 (s.length + 1)

/-- First index at or after `start` holding character `c`
(JavaScript `indexOf(c, start)`), if any. -/
def indexOfFrom (s : List Char) (c : Char) (start : Nat) : Option Nat :=
  match (s.drop start).findIdx? (· = c) with
  | some k => some (start + k)
  | none => none

/-- First index at or after `start` where `sub` occurs as a prefix of the
remaining text (substring search). -/
def findSubFrom (s sub : List Char) (start fuel : Nat) : Option Nat :=
  match fuel with
  | 0 => none
  | fuel + 1 =>
    if sub.isPrefixOf (s.drop start) then some start
    else if start < s.length then findSubFrom s sub (start + 1) fuel
    else none

/-- Match of the regex fragment `(['"])(.*?)\1` at the head of `s`: an opening
quote, the shortest (possibly empty) run of non-newline characters, and the
matching closing quote.  Returns the quoted body and the total match length. -/
def parseQuotedLazy (s : List Char) : Option (List Char × Nat) :=
  match s with
  | q :: rest =>
    if q = '\'' ∨ q = '"' then
      let body := rest.takeWhile (fun c => c ≠ q)
      if body.length < rest.length ∧ '\n' ∉ body then some (body, body.length + 2)
      else none
    else none
  | [] => none

/-- Match of the regex fragment `(['"])(.+?)\1`: like `parseQuotedLazy` but the
quoted body must be nonempty. -/
def parseQuotedLazy1 (s : List Char) : Option (List Char × Nat) :=
  match parseQuotedLazy s with
  | some (body, len) => if body = [] then none else some (body, len)
  | none => none

/-- Match of the trailing regex fragment `\s*;?` at index `p`: greedily consume
whitespace, then an optional semicolon; returns the position after the match. -/
def semiTail (s : List Char) (p : Nat) : Nat :=
  let p1 := p + runLength isSpaceChar (s.drop p)
  if s.getD p1 '\x00' = ';' then p1 + 1 else p1

/-- Match of the regex fragment `from\s+(['"])(.+?)\1\s*;?` at index `p`,
returning the quoted module source and the position after the whole match. -/
def fromClause (s : List Char) (p : Nat) : Option (List Char × Nat) :=
  if "from".toList.isPrefixOf (s.drop p) then
    let w := runLength isSpaceChar (s.drop (p + 4))
    if w = 0 then none
    else
      match parseQuotedLazy1 (s.drop (p + 4 + w)) with
      | some (src, qlen) => some (src, semiTail s (p + 4 + w + qlen))
      | none => none
  else none

/-- Result of `findWithDefaults` (src/script/macros.ts).  The source's `end`
field is named `stop`. -/
structure WithDefaultsFind where
  start : Nat
  stop : Nat
  typeParam : List Char
  defaults : List Char
deriving DecidableEq, Repr

/-- Attempt of the regex tail `withDefaults\s*\(` at index `base`; returns the
position after the `(` on success. -/
def wdAttempt (s : List Char) (base : Nat) : Option Nat :=
  if "withDefaults".toList.isPrefixOf (s.drop base) then
    let a := base + 12
    let w := runLength isSpaceChar (s.drop a)
    if s.getD (a + w) '\x00' = '(' then some (a + w + 1) else none
  else none

/-- Global-regex search for `(?:(?:const|let|var)\s+\w+\s*=\s*)?withDefaults\s*\(`
starting at `start`; returns `(matchIndex, matchEnd)`. -/
def wdSearch (s : List Char) (start fuel : Nat) : Option (Nat × Nat) :=
  match fuel with
  | 0 => none
  | fuel + 1 =>
    if start < s.length then
      let hit : Option Nat :=
        match matchDeclKw s start with
        | some q =>
          match wdAttempt s q with
          | some e => some e
          | none => wdAttempt s start
        | none => wdAttempt s start
      match hit with
      | some e => some (start, e)
      | none => wdSearch s (start + 1) fuel
    else none

/-- Match loop of `findWithDefaults`: find `withDefaults(defineProps<T>(), {...})`,
extracting the inner type parameter and the trailing defaults literal; occurrences
that do not complete the pattern are skipped and the search continues. -/
def findWithDefaultsLoop (s : List Char) (cursor fuel : Nat) : Option WithDefaultsFind :=
  match fuel with
  | 0 => none
  | fuel + 1 =>
    match wdSearch s cursor (s.length + 1) with
    | none => none
    | some (mIdx, mEnd) =>
      let st := lineStart s mIdx
      match indexOfFrom s '(' (mIdx + 11) with
      | none => findWithDefaultsLoop s mEnd fuel
      | some ops =>
        match matchBalanced s ops '(' ')' with
        | none => findWithDefaultsLoop s mEnd fuel
        | some outer =>
          let inner := outer.1
          match findSubFrom inner "defineProps".toList 0 (inner.length + 1) with
          | none => findWithDefaultsLoop s mEnd fuel
          | some dpIdx =>
            let pos0 := dpIdx + 11 + runLength isSpaceChar (inner.drop (dpIdx + 11))
            let tp := if inner.getD pos0 '\x00' = '<' then matchBalanced inner pos0 '<' '>' else none
            let typeParam : Option (List Char) := tp.map (·.1)
            let pos1 := match tp with
              | some r => r.2 + 1
              | none => pos0
            let pos2 := if inner.getD pos1 '\x00' = '(' then
                match matchBalanced inner pos1 '(' ')' with
                | some pr => pr.2 + 1
                | none => pos1
              else pos1
            if jsTruthyStrOpt typeParam then
              match indexOfFrom inner ',' pos2 with
              | none => findWithDefaultsLoop s mEnd fuel
              | some commaIdx =>
                let defaults := trimBoth (inner.drop (commaIdx + 1))
                let e0 := outer.2 + 1
                let e1 := e0 + runLength isTabSpace (s.drop e0)
                let e2 := if s.getD e1 '\x00' = ';' then e1 + 1 else e1
                let e3 := if s.getD e2 '\x00' = '\n' then e2 + 1 else e2
                some ⟨st, e3, typeParam.getD [], defaults⟩
            else findWithDefaultsLoop s mEnd fuel

/-- `findWithDefaults(content)` from src/script/macros.ts: find the
`withDefaults(defineProps<T>(), { ... })` pattern. -/
def findWithDefaults (s : List Char) : Option WithDefaultsFind :=
  findWithDefaultsLoop s 0 (s.length + 1)

/-- Record for one `defineModel` occurrence (src/types: `ModelMacro`). -/
structure ModelMacro where
  variableName : List Char
  name : Option (List Char)
  type : Option (List Char)
  options : Option (List Char)
deriving DecidableEq, Repr

/-- Attempt of the regex `(?:const|let|var)\s+(\w+)\s*=\s*defineModel` at index
`p`; returns the position after `defineModel` and the captured variable name. -/
def dmAttempt (s : List Char) (p : Nat) : Option (Nat × List Char) :=
  let kwLen : Option Nat :=
    if "const".toList.isPrefixOf (s.drop p) then some 5
    else if "let".toList.isPrefixOf (s.drop p) then some 3
    else if "var".toList.isPrefixOf (s.drop p) then some 3
    else none
  match kwLen with
  | none => none
  | some k =>
    let p1 := p + k
    let w1 := runLength isSpaceChar (s.drop p1)
    if w1 = 0 then none
    else
      let p2 := p1 + w1
      let varName := (s.drop p2).takeWhile isWordChar
      if varName = [] then none
      else
        let p3 := p2 + varName.length
        let p4 := p3 + runLength isSpaceChar (s.drop p3)
        if s.getD p4 '\x00' = '=' then
          let p5 := p4 + 1
          let p6 := p5 + runLength isSpaceChar (s.drop p5)
          if "defineModel".toList.isPrefixOf (s.drop p6) then some (p6 + 11, varName)
          else none
        else none

/-- Global-regex search for the `defineModel` declaration pattern starting at
`start`; returns `(matchIndex, matchEnd, variableName)`. -/
def dmSearch (s : List Char) (start fuel : Nat) : Option (Nat × Nat × List Char) :=
  match fuel with
  | 0 => none
  | fuel + 1 =>
    if start < s.length then
      match dmAttempt s start with
      | some (e, v) => some (start, e, v)
      | none => dmSearch s (start + 1) fuel
    else none

/-- Match loop of `findDefineModels` (src/script/macros.ts): collect every
`const <varName> = defineModel<Type>("name", { options })` occurrence with its
statement range, parsing the first argument as a quoted public name or an
options literal distinguished by its first character. -/
def findDefineModelsLoop (s : List Char) (cursor fuel : Nat) :
    List (Nat × Nat × ModelMacro) :=
  match fuel with
  | 0 => []
  | fuel + 1 =>
    match dmSearch s cursor (s.length + 1) with
    | none => []
    | some (mIdx, mEnd, varName) =>
      let tp := if s.getD mEnd '\x00' = '<' then matchBalanced s mEnd '<' '>' else none
      let type : Option (List Char) := tp.map (·.1)
      let pos1 := match tp with
        | some r => r.2 + 1
        | none => mEnd
      if s.getD pos1 '\x00' = '(' then
        match matchBalanced s pos1 '(' ')' with
        | some pr =>
          let argContent := trimBoth pr.1
          let nameOpts : Option (List Char) × Option (List Char) :=
            if argContent ≠ [] then
              match parseQuotedLazy argContent with
              | some (nm, len) =>
                let afterString := trimBoth (argContent.drop len)
                if afterString.head? = some ',' then
                  (some nm, some (trimBoth (afterString.drop 1)))
                else (some nm, none)
              | none =>
                if argContent.head? = some '\x7b' then (none, some argContent)
                else (none, none)
            else (none, none)
          let e0 := pr.2 + 1
          let e1 := e0 + runLength isTabSpace (s.drop e0)
          let e2 := if s.getD e1 '\x00' = ';' then e1 + 1 else e1
          let e3 := if s.getD e2 '\x00' = '\n' then e2 + 1 else e2
          let st := lineStart s mIdx
          (st, e3, ⟨varName, nameOpts.1, type, nameOpts.2⟩) ::
            findDefineModelsLoop s mEnd fuel
        | none => findDefineModelsLoop s mEnd fuel
      else findDefineModelsLoop s mEnd fuel

/-- One `{ external name, local alias }` pair of an import record.  The
source's `local` field is named `localName` because `local` is reserved. -/
structure NamedImport where
  imported : List Char
  localName : List Char
deriving DecidableEq, Repr

/-- Import record (src/types: `ImportInfo`). -/
structure ImportInfo where
  source : List Char
  defaultImport : Option (List Char) := none
  namedImports : List NamedImport
  namespaceImport : Option (List Char) := none
  typeOnly : Bool
deriving DecidableEq, Repr

/-- Multiline global-regex search for `^[ \t]*<kw>\s+` (flags `gm`) starting at
`start`: the match must begin at a line start; returns the match start and the
position after the greedy `\s+`. -/
def lineKwSearch (s kw : List Char) (start fuel : Nat) : Option (Nat × Nat) :=
  match fuel with
  | 0 => none
  | fuel + 1 =>
    if start < s.length then
      if start = 0 ∨ s.getD (start - 1) ' ' = '\n' then
        let t := runLength isTabSpace (s.drop start)
        if kw.isPrefixOf (s.drop (start + t)) then
          let a := start + t + kw.length
          let w := runLength isSpaceChar (s.drop a)
          if w = 0 then lineKwSearch s kw (start + 1) fuel else some (start, a + w)
        else lineKwSearch s kw (start + 1) fuel
      else lineKwSearch s kw (start + 1) fuel
    else none

/-- JavaScript `split` on a single separator character: `"".split(c)` is `[""]`
and separators at the ends produce empty pieces. -/
def splitOnChar (c : Char) : List Char → List (List Char)
  | [] => [[]]
  | ch :: rest =>
    let r := splitOnChar c rest
    if ch = c then [] :: r
    else
      match r with
      | h :: t => (ch :: h) :: t
      | [] => [[ch]]

/-- Match of `^(\S+)\s+as\s+(\S+)$` against a named-import item, returning the
two captured tokens. -/
def asMatchSplit (cleaned : List Char) : Option (List Char × List Char) :=
  let a := cleaned.takeWhile (fun ch => ¬ isSpaceChar ch)
  if a = [] then none
  else
    let r1 := cleaned.drop a.length
    let w1 := runLength isSpaceChar r1
    if w1 = 0 then none
    else
      let r2 := r1.drop w1
      if "as".toList.isPrefixOf r2 then
        let r3 := r2.drop 2
        let w2 := runLength isSpaceChar r3
        if w2 = 0 then none
        else
          let b := r3.drop w2
          if b ≠ [] ∧ b.all (fun ch => ¬ isSpaceChar ch) then some (a, b) else none
      else none

/-- Parse of one named-import item (`parseImports` inner loop): trim, strip an
optional leading `type` marker, and split an optional `x as y` alias. -/
def parseNamedItem (part : List Char) : Option NamedImport :=
  let trimmed := trimBoth part
  if trimmed = [] then none
  else
    let cleaned :=
      if "type".toList.isPrefixOf trimmed then
        let w := runLength isSpaceChar (trimmed.drop 4)
        if w = 0 then trimmed else trimmed.drop (4 + w)
      else trimmed
    match asMatchSplit cleaned with
    | some (a, b) => some ⟨a, b⟩
    | none => some ⟨cleaned, cleaned⟩

/-- Match of the namespace-import clause `\*\s+as\s+(\w+)\s+from\s+(['"])(.+?)\2\s*;?`
at index `pos`, returning the namespace binding, the source, and the match end. -/
def nsAttempt (s : List Char) (pos : Nat) : Option (List Char × List Char × Nat) :=
  if s.getD pos '\x00' = '*' then
    let w1 := runLength isSpaceChar (s.drop (pos + 1))
    if w1 = 0 then none
    else
      let p1 := pos + 1 + w1
      if "as".toList.isPrefixOf (s.drop p1) then
        let w2 := runLength isSpaceChar (s.drop (p1 + 2))
        if w2 = 0 then none
        else
          let p2 := p1 + 2 + w2
          let nm := (s.drop p2).takeWhile isWordChar
          if nm = [] then none
          else
            let p3 := p2 + nm.length
            let w3 := runLength isSpaceChar (s.drop p3)
            if w3 = 0 then none
            else
              match fromClause s (p3 + w3) with
              | some (src, e) => some (nm, src, e)
              | none => none
      else none
  else none

/-- Index search of `restFromPos.match(/\bfrom\s+['"]/)`: the first position in
`rest` where `from` starts at a word boundary and is followed by whitespace and
a quote. -/
def findFromToken (rest : List Char) (start fuel : Nat) : Option Nat :=
  match fuel with
  | 0 => none
  | fuel + 1 =>
    if start < rest.length then
      if (start = 0 ∨ ¬ isWordChar (rest.getD (start - 1) ' ')) ∧
          "from".toList.isPrefixOf (rest.drop start) then
        let w := runLength isSpaceChar (rest.drop (start + 4))
        if w ≠ 0 ∧ (rest.getD (start + 4 + w) '\x00' = '\'' ∨
            rest.getD (start + 4 + w) '\x00' = '"') then some start
        else findFromToken rest (start + 1) fuel
      else findFromToken rest (start + 1) fuel
    else none

/-- Strip of `.trim().replace(/,\s*$/, "").trim()` applied to the text before a
named-import brace. -/
def stripTrailingComma (t : List Char) : List Char :=
  let t1 := trimBoth t
  if t1.getLast? = some ',' then trimBoth t1.dropLast else t1

/-- Match of the simple import clause `^(.+?)\s+from\s+(['"])(.+?)\2\s*;?` at
index `pos`: the lazy clause takes the shortest nonempty non-newline run after
which `\s+from\s+<quoted>` matches.  Returns the clause and the match end. -/
def simpleImportAttempt (s : List Char) (pos k fuel : Nat) :
    Option (List Char × List Char × Nat) :=
  match fuel with
  | 0 => none
  | fuel + 1 =>
    if s.getD (pos + k - 1) '\n' = '\n' then none
    else
      let p1 := pos + k
      let w1 := runLength isSpaceChar (s.drop p1)
      let attempt : Option (List Char × List Char × Nat) :=
        if w1 = 0 then none
        else
          match fromClause s (p1 + w1) with
          | some (src, e) => some ((s.take p1).drop pos, src, e)
          | none => none
      match attempt with
      | some r => some r
      | none => simpleImportAttempt s pos (k + 1) fuel

/-- Main loop of `parseImports` (src/script/macros.ts): for each `import`
keyword at the start of a line, parse an optional `type` marker, skip
side-effect imports, and parse namespace, braced (default + named, possibly
multiline), or simple default clauses; failed shapes are skipped and the
search resumes after the matched keyword.  Returns the records together with
the statement ranges to remove. -/
def parseImportsLoop (s : List Char) (cursor fuel : Nat) :
    List ImportInfo × List (Nat × Nat) :=
  match fuel with
  | 0 => ([], [])
  | fuel + 1 =>
    match lineKwSearch s "import".toList cursor (s.length + 1) with
    | none => ([], [])
    | some (stmtStart, afterKw) =>
      let typeW :=
        if "type".toList.isPrefixOf (s.drop afterKw) then
          let w := runLength isSpaceChar (s.drop (afterKw + 4))
          if w = 0 then none else some (4 + w)
        else none
      let typeOnly := typeW.isSome
      let pos := afterKw + typeW.getD 0
      let c0 := s.getD pos '\x00'
      if c0 = '\'' ∨ c0 = '"' then
        -- side-effect import, skipped here (handled separately)
        parseImportsLoop s afterKw fuel
      else
        match nsAttempt s pos with
        | some (nsName, src, endIdx) =>
          let info : ImportInfo :=
            { source := src, namedImports := [], namespaceImport := some nsName,
              typeOnly := typeOnly }
          let rest := parseImportsLoop s endIdx fuel
          (info :: rest.1, (stmtStart, endIdx) :: rest.2)
        | none =>
          let restFromPos := s.drop pos
          let braceIdx := restFromPos.findIdx? (· = '\x7b')
          let firstFrom := findFromToken restFromPos 0 (restFromPos.length + 1)
          let braced : Bool := match braceIdx with
            | some bi => firstFrom.isNone || decide (bi < firstFrom.getD 0)
            | none => false
          if braced then
            let braceAbs := pos + braceIdx.getD 0
            match matchBalanced s braceAbs '\x7b' '\x7d' with
            | none => parseImportsLoop s afterKw fuel
            | some balanced =>
              let afterBrace := balanced.2 + 1
              let w0 := runLength isSpaceChar (s.drop afterBrace)
              match fromClause s (afterBrace + w0) with
              | none => parseImportsLoop s afterKw fuel
              | some (src, fromPos) =>
                let beforeBrace := stripTrailingComma ((s.take braceAbs).drop pos)
                let namedPart := trimBoth balanced.1
                let named :=
                  if namedPart = [] then []
                  else (splitOnChar ',' namedPart).filterMap parseNamedItem
                let info : ImportInfo :=
                  { source := src,
                    defaultImport := if beforeBrace ≠ [] then some beforeBrace else none,
                    namedImports := named, typeOnly := typeOnly }
                let rest := parseImportsLoop s fromPos fuel
                (info :: rest.1, (stmtStart, fromPos) :: rest.2)
          else
            match simpleImportAttempt s pos 1 (s.length + 1) with
            | none => parseImportsLoop s afterKw fuel
            | some (clause, src, endIdx) =>
              let info : ImportInfo :=
                { source := src, defaultImport := some (trimBoth clause),
                  namedImports := [], typeOnly := typeOnly }
              let rest := parseImportsLoop s endIdx fuel
              (info :: rest.1, (stmtStart, endIdx) :: rest.2)

/-- Test of the multiline-regex `$` position: end of the string or right
before a newline. -/
def lineEnd (s : List Char) (p : Nat) : Bool :=
  decide (s.length ≤ p) || s.getD p '\x00' = '\n'

/-- Backtracking match of the side-effect-import tail `\s*;?[ \t]*$` starting
right after the closing quote (index `qEnd`), trying the greedy whitespace
split first (largest `\s*` first, and at each split a consumed `;` before an
omitted one); returns the match end. -/
def seTailTry (s : List Char) (qEnd i : Nat) : Option Nat :=
  let p1 := qEnd + i
  let withSemi : Option Nat :=
    if s.getD p1 '\x00' = ';' then
      let k := runLength isTabSpace (s.drop (p1 + 1))
      if lineEnd s (p1 + 1 + k) then some (p1 + 1 + k) else none
    else none
  match withSemi with
  | some e => some e
  | none =>
    let k := runLength isTabSpace (s.drop p1)
    if lineEnd s (p1 + k) then some (p1 + k) else none

/-- Descending backtracking loop for `seTailTry`. -/
def seTailDesc (s : List Char) (qEnd : Nat) : Nat → Option Nat
  | 0 => seTailTry s qEnd 0
  | i + 1 =>
    match seTailTry s qEnd (i + 1) with
    | some e => some e
    | none => seTailDesc s qEnd i

/-- Match of the whole side-effect tail `\s*;?[ \t]*$` at `qEnd`. -/
def seTail (s : List Char) (qEnd : Nat) : Option Nat :=
  seTailDesc s qEnd (runLength isSpaceChar (s.drop qEnd))

/-- Scan of `extractMacros` for side-effect imports in the residual body:
every full line matching `^[ \t]*import\s+(['"])(.+?)\1\s*;?[ \t]*$` is
recorded (trimmed) together with its range. -/
def sideEffectLoop (s : List Char) (cursor fuel : Nat) :
    List (List Char) × List (Nat × Nat) :=
  match fuel with
  | 0 => ([], [])
  | fuel + 1 =>
    match lineKwSearch s "import".toList cursor (s.length + 1) with
    | none => ([], [])
    | some (stmtStart, afterKw) =>
      match parseQuotedLazy1 (s.drop afterKw) with
      | none => sideEffectLoop s (stmtStart + 1) fuel
      | some (_, qlen) =>
        match seTail s (afterKw + qlen) with
        | none => sideEffectLoop s (stmtStart + 1) fuel
        | some e =>
          let matched := trimBoth ((s.take e).drop stmtStart)
          let rest := sideEffectLoop s e fuel
          (matched :: rest.1, (stmtStart, e) :: rest.2)

/-- Forward scan of `extractMacros` finding the end of one export statement:
track brace depth, absorb a trailing `from '...'` clause or semicolon after a
braced block, stop at a top-level semicolon, and stop at a top-level newline
unless the next line starts with a `|`/`&` union or intersection continuation;
running off the end yields the text length. -/
def expWalk (s : List Char) (pos : Nat) (depth : Int) (found : Bool) (fuel : Nat) : Nat :=
  match fuel with
  | 0 => s.length
  | fuel + 1 =>
    if pos < s.length then
      let ch := s.getD pos '\x00'
      if ch = '\x7b' then expWalk s (pos + 1) (depth + 1) true fuel
      else if ch = '\x7d' then
        let d' := depth - 1
        if found ∧ d' = 0 then
          let p1 := pos + 1
          let p2 := p1 + runLength isTabSpace (s.drop p1)
          match fromClause s p2 with
          | some (_, e) => e
          | none => if s.getD p2 '\x00' = ';' then p2 + 1 else p2
        else expWalk s (pos + 1) d' found fuel
      else if ch = ';' ∧ depth = 0 then pos + 1
      else if ch = '\n' ∧ depth = 0 ∧ ¬ found then
        let rest := s.drop (pos + 1)
        let nextContent := (rest.drop (runLength isTabSpace rest)).takeWhile (fun c => c ≠ '\n')
        if nextContent.head? = some '|' ∨ nextContent.head? = some '&' then
          expWalk s (pos + 1) depth found fuel
        else pos
      else expWalk s (pos + 1) depth found fuel
    else s.length

/-- Scan of `extractMacros` for top-level `export` statements in the residual
body: each statement found by `^[ \t]*export\s+` is walked to its end with
`expWalk`, recorded trimmed, and the search resumes at the statement end. -/
def exportScanLoop (s : List Char) (cursor fuel : Nat) :
    List (List Char) × List (Nat × Nat) :=
  match fuel with
  | 0 => ([], [])
  | fuel + 1 =>
    match lineKwSearch s "export".toList cursor (s.length + 1) with
    | none => ([], [])
    | some (stmtStart, afterKw) =>
      let stmtEnd := expWalk s afterKw 0 false (s.length + 1)
      let exported := trimBoth ((s.take stmtEnd).drop stmtStart)
      let rest := exportScanLoop s stmtEnd fuel
      (exported :: rest.1, (stmtStart, stmtEnd) :: rest.2)

/-- Model of the `MagicString.remove` accumulation: drop every character whose
index lies in one of the removed `[start, stop)` ranges of the original text. -/
def removeRanges (s : List Char) (rs : List (Nat × Nat)) : List Char :=
  (s.enum.filter (fun ic => ¬ rs.any (fun r => decide (r.1 ≤ ic.1) && decide (ic.1 < r.2)))).map
    (·.2)

/-- Record for `defineProps` data in the Extracted Macro Set. -/
structure PropsMacro where
  type : Option (List Char) := none
  runtime : Option (List Char) := none
  defaults : Option (List Char) := none
deriving DecidableEq, Repr

/-- Record for `defineEmits` data in the Extracted Macro Set. -/
structure EmitsMacro where
  type : Option (List Char) := none
  runtime : Option (List Char) := none
deriving DecidableEq, Repr

/-- Record for `defineSlots` data in the Extracted Macro Set. -/
structure SlotsMacro where
  type : Option (List Char) := none
deriving DecidableEq, Repr

/-- Record for `defineExpose` data in the Extracted Macro Set. -/
structure ExposeMacro where
  runtime : Option (List Char) := none
deriving DecidableEq, Repr

/-- Record for `defineOptions` data in the Extracted Macro Set. -/
structure OptionsMacro where
  runtime : Option (List Char) := none
deriving DecidableEq, Repr

/-- The Extracted Macro Set (src/types: `ExtractedMacros`). -/
structure ExtractedMacros where
  props : Option PropsMacro
  emits : Option EmitsMacro
  slots : Option SlotsMacro
  expose : Option ExposeMacro
  options : Option OptionsMacro
  models : List ModelMacro
  body : List Char
  imports : List ImportInfo
  rawImports : List (List Char)
  rawExports : List (List Char)
deriving DecidableEq, Repr

/-- `extractMacros(scriptContent)` from src/script/macros.ts: extract Vue
macros and imports from script-setup content.  Imports are parsed first; then
`withDefaults(defineProps<T>(), {...})` is checked before a plain
`defineProps`; then the remaining known macros and every `defineModel`; all
matched ranges are removed from the text; finally side-effect imports and
top-level export statements are extracted from the residual body, which is
trimmed into `body`.  A field is set only when its extracted string is truthy,
mirroring the JavaScript `if (x) field = x` guards. -/
def extractMacros (scriptContent : List Char) : ExtractedMacros :=
  let pi := parseImportsLoop scriptContent 0 (scriptContent.length + 2)
  let wd := findWithDefaults scriptContent
  let dp := match wd with
    | some _ => none
    | none => findMacro scriptContent "defineProps".toList
  let props : Option PropsMacro := match wd with
    | some w => some { type := some w.typeParam, defaults := some w.defaults }
    | none => dp.map (fun r => { type := optTruthy r.typeParam, runtime := optTruthy r.runtimeArg })
  let de := findMacro scriptContent "defineEmits".toList
  let emits := de.map (fun r =>
    ({ type := optTruthy r.typeParam, runtime := optTruthy r.runtimeArg } : EmitsMacro))
  let ds := findMacro scriptContent "defineSlots".toList
  let slots := ds.map (fun r => ({ type := optTruthy r.typeParam } : SlotsMacro))
  let dex := findMacro scriptContent "defineExpose".toList
  let expose := dex.map (fun r => ({ runtime := optTruthy r.runtimeArg } : ExposeMacro))
  let dopt := findMacro scriptContent "defineOptions".toList
  let options := dopt.map (fun r => ({ runtime := optTruthy r.runtimeArg } : OptionsMacro))
  let dms := findDefineModelsLoop scriptContent 0 (scriptContent.length + 2)
  let macroRanges : List (Nat × Nat) :=
    (match wd with
      | some w => [(w.start, w.stop)]
      | none => []) ++
    (match dp with
      | some r => [(r.start, r.stop)]
      | none => []) ++
    (match de with
      | some r => [(r.start, r.stop)]
      | none => []) ++
    (match ds with
      | some r => [(r.start, r.stop)]
      | none => []) ++
    (match dex with
      | some r => [(r.start, r.stop)]
      | none => []) ++
    (match dopt with
      | some r => [(r.start, r.stop)]
      | none => []) ++
    dms.map (fun t => (t.1, t.2.1))
  let currentBody := removeRanges scriptContent (pi.2 ++ macroRanges)
  let se := sideEffectLoop currentBody 0 (currentBody.length + 2)
  let ex := exportScanLoop currentBody 0 (currentBody.length + 2)
  let body :=
    if se.2 ≠ [] ∨ ex.2 ≠ [] then trimBoth (removeRanges currentBody (se.2 ++ ex.2))
    else trimBoth currentBody
  { props := props, emits := emits, slots := slots, expose := expose, options := options,
    models := dms.map (fun t => t.2.2), body := body, imports := pi.1,
    rawImports := se.1, rawExports := ex.1 }

/-- Mutable conversion context (src/types: `JsxContext`), restricted to the
fields read or written by the embedded functions; mutation is modelled by
returning an updated copy. -/
structure JsxContext where
  refIdentifiers : List (List Char)
  propIdentifiers : List (List Char)
  usedContextMembers : List (List Char)
  warnings : List (List Char)
deriving DecidableEq, Repr

/-- JavaScript `Set.prototype.add`: append when absent, preserving insertion
order. -/
def addUniq (l : List (List Char)) (x : List Char) : List (List Char) :=
  if x ∈ l then l else l ++ [x]

/-- Match of the template-global regex `<g>(?![a-zA-Z0-9_])` at index `p`. -/
def globalMatchAt (s g : List Char) (p : Nat) : Bool :=
  g.isPrefixOf (s.drop p) && ¬ isWordChar (s.getD (p + g.length) ' ')

/-- `regex.test` for the template-global regex: some position matches. -/
def hasGlobalToken (s g : List Char) : Bool :=
  (List.range (s.length + 1)).any (fun p => globalMatchAt s g p)

/-- Global `replace` of the template-global regex by a fixed replacement,
resuming the scan after each match. -/
def replaceGlobalGo (s g repl : List Char) (p fuel : Nat) : List Char :=
  match fuel with
  | 0 => []
  | fuel + 1 =>
    if p < s.length then
      if globalMatchAt s g p then repl ++ replaceGlobalGo s g repl (p + g.length) fuel
      else s.getD p ' ' :: replaceGlobalGo s g repl (p + 1) fuel
    else []

/-- `TEMPLATE_GLOBALS` (src/template/utils.ts) in `Object.entries` order:
global, replacement, context member. -/
def TEMPLATE_GLOBALS : List (List Char × List Char × List Char) :=
  [("$attrs".toList, "attrs".toList, "attrs".toList),
   ("$slots".toList, "slots".toList, "slots".toList),
   ("$emit".toList, "emit".toList, "emit".toList),
   ("$props".toList, "props".toList, "props".toList)]

/-- `WARN_GLOBALS` (src/template/utils.ts). -/
def WARN_GLOBALS : List (List Char) :=
  ["$t".toList, "$route".toList, "$router".toList, "$i18n".toList, "$refs".toList]

/-- Warning text pushed for a framework-scope global. -/
def warnMessage (g : List Char) : List Char :=
  "Template global '".toList ++ g ++
    "' detected. You may need to add the equivalent Composition API call to your setup function.".toList

/-- Match of the `appendRefValue` regex
`(?<![.\w])\b<name>\b(?!\.value\b)(?=\s*[^(]|$)` at index `p` (the name is
assumed to be an identifier, so the leading `\b` is subsumed by the
lookbehind).  The lookahead `(?=\s*[^(]|$)` succeeds exactly when the next
character is absent or differs from `(`, because every whitespace character
itself matches `[^(]`. -/
def refMatchAt (s nm : List Char) (p : Nat) : Bool :=
  nm.isPrefixOf (s.drop p) &&
  (decide (p = 0) || ¬ isWordDot (s.getD (p - 1) ' ')) &&
  (let q := p + nm.length
   (decide (s.length ≤ q) || ¬ isWordChar (s.getD q ' ')) &&
   ¬ (".value".toList.isPrefixOf (s.drop q) &&
      (decide (s.length ≤ q + 6) || ¬ isWordChar (s.getD (q + 6) ' '))) &&
   (decide (s.length ≤ q) || s.getD q '\x00' ≠ '('))

/-- Replace-callback decision of `appendRefValue` (src/template/utils.ts): a
matched identifier followed by optional whitespace and `:` while the preceding
text has more `\x7b` than `\x7d` is an object key and stays unchanged. -/
def refKeepOriginal (s nm : List Char) (p : Nat) : Bool :=
  let after := s.drop (p + nm.length)
  let afterWs := after.drop (runLength isSpaceChar after)
  if afterWs.head? = some ':' then
    (s.take p).count '\x7b' > (s.take p).count '\x7d'
  else false

/-- Scan of one `appendRefValue` replace pass for a single name, resuming after
each match like a global-regex `replace`. -/
def appendGo (s nm : List Char) (p fuel : Nat) : List Char :=
  match fuel with
  | 0 => []
  | fuel + 1 =>
    if p < s.length then
      if refMatchAt s nm p then
        (if refKeepOriginal s nm p then nm else nm ++ ".value".toList) ++
          appendGo s nm (p + nm.length) fuel
      else s.getD p ' ' :: appendGo s nm (p + 1) fuel
    else []

/-- `appendRefValue(expr, refs)` from src/template/utils.ts: append `.value` to
known reactive-reference identifiers, skipping occurrences that are not
standalone, already suffixed, or in object-key position. -/
def appendRefValue (expr : List Char) (refs : List (List Char)) : List Char :=
  refs.foldl (fun r nm => appendGo r nm 0 (r.length + 1)) expr

/-- Match of the `prefixProps` regex `(?<![.\w])\b<name>\b` at index `p`. -/
def propMatchAt (s nm : List Char) (p : Nat) : Bool :=
  nm.isPrefixOf (s.drop p) &&
  (decide (p = 0) || ¬ isWordDot (s.getD (p - 1) ' ')) &&
  (decide (s.length ≤ p + nm.length) || ¬ isWordChar (s.getD (p + nm.length) ' '))

/-- Replace-callback decision of `prefixProps`: keep the occurrence unchanged
when the preceding text already ends with `props.` or when the occurrence is in
object-key position. -/
def propKeepOriginal (s nm : List Char) (p : Nat) : Bool :=
  "props.".toList.isSuffixOf (s.take p) ||
  (let after := s.drop (p + nm.length)
   let afterWs := after.drop (runLength isSpaceChar after)
   if afterWs.head? = some ':' then
     (s.take p).count '\x7b' > (s.take p).count '\x7d'
   else false)

/-- Scan of one `prefixProps` replace pass for a single name. -/
def propGo (s nm : List Char) (p fuel : Nat) : List Char :=
  match fuel with
  | 0 => []
  | fuel + 1 =>
    if p < s.length then
      if propMatchAt s nm p then
        (if propKeepOriginal s nm p then nm else "props.".toList ++ nm) ++
          propGo s nm (p + nm.length) fuel
      else s.getD p ' ' :: propGo s nm (p + 1) fuel
    else []

/-- `prefixProps(expr, propNames)` from src/template/utils.ts: prefix known
component-input identifiers with `props.`, under the same standalone and
object-key exclusions. -/
def prefixProps (expr : List Char) (propNames : List (List Char)) : List Char :=
  propNames.foldl (fun r nm => propGo r nm 0 (r.length + 1)) expr

/-- `rewriteTemplateGlobals(expr, ctx)` from src/template/utils.ts: rewrite the
four known template-scope globals (recording used context members), warn once
per framework-scope global, then prefix component-input identifiers with
`props.` and append `.value` to reactive-reference identifiers, each pass
skipped when its driving set is empty. -/
def rewriteTemplateGlobals (expr : List Char) (ctx : JsxContext) :
    List Char × JsxContext :=
  let step1 := TEMPLATE_GLOBALS.foldl
    (fun (acc : List Char × JsxContext) g =>
      if hasGlobalToken acc.1 g.1 then
        (replaceGlobalGo acc.1 g.1 g.2.1 0 (acc.1.length + 1),
         if g.2.2 ≠ "props".toList then
           { acc.2 with usedContextMembers := addUniq acc.2.usedContextMembers g.2.2 }
         else acc.2)
      else acc)
    (expr, ctx)
  let ctx1 := WARN_GLOBALS.foldl
    (fun (c : JsxContext) g =>
      if hasGlobalToken expr g then
        if ¬ c.warnings.any (fun w => (findSubFrom w g 0 (w.length + 1)).isSome) then
          { c with warnings := c.warnings ++ [warnMessage g] }
        else c
      else c)
    step1.2
  let r1 := step1.1
  let r2 := if ctx1.propIdentifiers.length > 0 then prefixProps r1 ctx1.propIdentifiers else r1
  let r3 := if ctx1.refIdentifiers.length > 0 then appendRefValue r2 ctx1.refIdentifiers else r2
  (r3, ctx1)

/-- JavaScript `Array.prototype.join` with a separator. -/
def joinSep (sep : List Char) : List (List Char) → List Char
  | [] => []
  | [x] => x
  | x :: xs => x ++ sep ++ joinSep sep xs

/-- Directive node of the parsed template tree (src/types: `DirectiveNode`),
with expression nodes flattened to their `content` strings, which is the only
part the embedded functions read. -/
structure DirectiveN where
  name : List Char
  arg : Option (List Char)
  exp : Option (List Char)
  modifiers : List (List Char)
deriving DecidableEq, Repr

/-- Property of an element: a static attribute (type 6) or a directive
(type 7). -/
inductive PropN where
  | attr (name : List Char) (value : Option (List Char))
  | dir (d : DirectiveN)
deriving DecidableEq, Repr

/-- Template child node (src/types: `TemplateChildNode`), restricted to the
node kinds the conditional-chain reconstructor distinguishes: elements (type
1), text (type 2), and a constructor for every other kind. -/
inductive TNode where
  | element (tag : List Char) (props : List PropN) (children : List TNode)
  | text (content : List Char)
  | other

/-- `findDirective(node, name)` from the control-flow module: the first
directive prop with the given name. -/
def findDirective (props : List PropN) (nm : List Char) : Option DirectiveN :=
  match props with
  | [] => none
  | PropN.dir d :: rest => if d.name = nm then some d else findDirective rest nm
  | _ :: rest => findDirective rest nm

/-- `isWhitespaceText(node)`: a text node whose content trims to the empty
string. -/
def isWhitespaceText (n : TNode) : Bool :=
  match n with
  | TNode.text c => trimBoth c = []
  | _ => false

/-- One entry of a reconstructed conditional chain: the (already rewritten)
condition, or `none` for the terminal `v-else`, and the branch node. -/
structure Branch where
  condition : Option (List Char)
  node : TNode

/-- Forward scan of `processConditionalChain` over the siblings after the
`v-if` node: whitespace-only text is skipped but counted as consumed, an
`else-if` element adds a condition-bearing branch and continues, an `else`
element adds the null-condition branch and stops, and anything else stops the
scan without being consumed. -/
def scanElse (siblings : List TNode) (ctx : JsxContext) :
    List Branch × Nat × JsxContext :=
  match siblings with
  | [] => ([], 0, ctx)
  | sib :: rest =>
    if isWhitespaceText sib then
      let r := scanElse rest ctx
      (r.1, r.2.1 + 1, r.2.2)
    else
      match sib with
      | TNode.element _ props _ =>
        match findDirective props "else-if".toList with
        | some d =>
          let cc := match d.exp with
            | some e => rewriteTemplateGlobals e ctx
            | none => ("true".toList, ctx)
          let r := scanElse rest cc.2
          ({ condition := some cc.1, node := sib } :: r.1, r.2.1 + 1, r.2.2)
        | none =>
          match findDirective props "else".toList with
          | some _ => ([{ condition := none, node := sib }], 1, ctx)
          | none => ([], 0, ctx)
      | _ => ([], 0, ctx)

/-- Template-literal rendering of a branch condition: the JavaScript `null`
prints as the text `null`. -/
def condStr (c : Option (List Char)) : List Char :=
  match c with
  | some s => s
  | none => "null".toList

/-- Loop body of `buildTernary` for two or more branches: a null-condition
branch renders bare, the last condition-bearing branch closes with ` : null`,
and every other condition-bearing branch is an open `cond ? rendered`;
rendering threads the context in branch order. -/
def buildParts (bs : List Branch) (ctx : JsxContext)
    (render : TNode → JsxContext → List Char × JsxContext) :
    List (List Char) × JsxContext :=
  match bs with
  | [] => ([], ctx)
  | [b] =>
    let rc := render b.node ctx
    match b.condition with
    | none => ([rc.1], rc.2)
    | some c => ([c ++ " ? ".toList ++ rc.1 ++ " : null".toList], rc.2)
  | b :: rest =>
    let rc := render b.node ctx
    let part := match b.condition with
      | none => rc.1
      | some c => c ++ " ? ".toList ++ rc.1
    let r := buildParts rest rc.2 render
    (part :: r.1, r.2)

/-- `buildTernary(branches, ctx, renderElement)` from the control-flow module:
a single branch becomes `cond ? rendered : null`; otherwise the per-branch
parts are joined with ` : `. -/
def buildTernary (bs : List Branch) (ctx : JsxContext)
    (render : TNode → JsxContext → List Char × JsxContext) :
    List Char × JsxContext :=
  match bs with
  | [b] =>
    let rc := render b.node ctx
    (condStr b.condition ++ " ? ".toList ++ rc.1 ++ " : null".toList, rc.2)
  | _ =>
    let pr := buildParts bs ctx render
    (joinSep " : ".toList pr.1, pr.2)

/-- `processConditionalChain(siblings, startIndex, ctx, renderElement)` from
the control-flow module: seed the chain with the `v-if` element at
`startIndex` (condition rewritten, or the literal `true` without an
expression), scan forward for `v-else-if`/`v-else` branches, and wrap the
built ternary in braces, returning the JSX, the consumed sibling count, and
the threaded context.  The source asserts that the start node is an element
with an `if` directive; other inputs yield `none`. -/
def processConditionalChain (siblings : List TNode) (startIndex : Nat)
    (ctx : JsxContext) (render : TNode → JsxContext → List Char × JsxContext) :
    Option (List Char × Nat × JsxContext) :=
  match siblings.drop startIndex with
  | TNode.element tag props children :: restSibs =>
    match findDirective props "if".toList with
    | some d =>
      let cc := match d.exp with
        | some e => rewriteTemplateGlobals e ctx
        | none => ("true".toList, ctx)
      let seed : Branch := { condition := some cc.1, node := TNode.element tag props children }
      let sc := scanElse restSibs cc.2
      let bt := buildTernary (seed :: sc.1) sc.2.2 render
      some ("\x7b".toList ++ bt.1 ++ "\x7d".toList, 1 + sc.2.1, bt.2)
    | none => none
  | _ => none

/-- Character class `[\w$]` used by the event-handler shape tests. -/
def isWordDollar (c : Char) : Bool := isWordChar c || c = '$'

/-- Tail check of the `isSimpleHandler` regex after the leading `[\w$]+` run:
zero or more groups of `[.?]` followed by a nonempty `[\w$]+` run, ending the
string. -/
def chainCheck (s : List Char) (fuel : Nat) : Bool :=
  match fuel with
  | 0 => false
  | fuel + 1 =>
    match s with
    | [] => true
    | c :: rest =>
      if c = '.' ∨ c = '?' then
        let r := rest.takeWhile isWordDollar
        r ≠ [] && chainCheck (rest.drop r.length) fuel
      else false

/-- `isSimpleHandler(expr)` from the event module: test of
`^[\w$][\w$]*(?:[.?][\w$]+)*$` against the trimmed expression. -/
def isSimpleHandler (expr : List Char) : Bool :=
  let t := trimBoth expr
  match t with
  | [] => false
  | c :: rest =>
    isWordDollar c && chainCheck (rest.drop (runLength isWordDollar rest)) (rest.length + 1)

/-- `isFunctionExpression(expr)` from the event module: a `function`
expression, a parenthesised arrow (starts with `(` and contains `=>`), or a
bare-parameter arrow matching `^[\w$]+\s*=>`. -/
def isFunctionExpression (expr : List Char) : Bool :=
  let t := trimBoth expr
  "function".toList.isPrefixOf t ||
  (t.head? = some '(' && (findSubFrom t "=>".toList 0 (t.length + 1)).isSome) ||
  (let r := t.takeWhile isWordDollar
   r ≠ [] &&
     "=>".toList.isPrefixOf
       ((t.drop r.length).drop (runLength isSpaceChar (t.drop r.length))))

/-- `NATIVE_MODIFIERS` from the event module: modifiers handled by the Vue JSX
runtime natively (not passed to `withModifiers`). -/
def NATIVE_MODIFIERS : List (List Char) :=
  ["capture".toList, "once".toList, "passive".toList]

/-- `toJsxEventName(eventName, capture)` from the event module: split at the
first colon, capitalise the base, and append the preserved colon suffix and a
`Capture` suffix when the capture modifier is present. -/
def toJsxEventNameCap (eventName : List Char) (capture : Bool) : List Char :=
  let colonIdx := eventName.findIdx? (· = ':')
  let base := match colonIdx with
    | some i => eventName.take i
    | none => eventName
  let suffix := match colonIdx with
    | some i => eventName.drop i
    | none => []
  let capitalized := match base with
    | [] => []
    | c :: r => c.toUpper :: r
  "on".toList ++ capitalized ++ suffix ++ (if capture then "Capture".toList else [])

/-- JSX prop produced by the event mapper. -/
structure EventProp where
  name : List Char
  value : List Char
deriving DecidableEq, Repr

/-- `processEvent(dir, ctx)` from the event module: rewrite the raw handler,
split native from runtime modifiers, build the JSX prop name (capture affects
only the name), use the handler bare when it is a simple identifier chain or
already a function expression (otherwise wrap it in a zero-argument arrow),
and wrap in `withModifiers` when runtime modifiers remain. -/
def processEvent (dir : DirectiveN) (ctx : JsxContext) : EventProp × JsxContext :=
  let eventName := dir.arg.getD []
  let rawHandler := dir.exp.getD []
  let hc := if rawHandler ≠ [] then rewriteTemplateGlobals rawHandler ctx else ([], ctx)
  let handler := hc.1
  let hasCapture := "capture".toList ∈ dir.modifiers
  let runtimeModifiers := dir.modifiers.filter (fun m => ¬ m ∈ NATIVE_MODIFIERS)
  let jsxName := toJsxEventNameCap eventName hasCapture
  if handler = [] then ({ name := jsxName, value := "() => \x7b\x7d".toList }, hc.2)
  else
    let simple := isSimpleHandler handler || isFunctionExpression handler
    let value0 := if simple then handler else "() => ".toList ++ handler
    let value :=
      if runtimeModifiers ≠ [] then
        let modList := joinSep ", ".toList
          (runtimeModifiers.map (fun m => "'".toList ++ m ++ "'".toList))
        if simple then
          "withModifiers(".toList ++ value0 ++ ", [".toList ++ modList ++ "])".toList
        else
          "withModifiers(() => ".toList ++ handler ++ ", [".toList ++ modList ++ "])".toList
      else value0
    ({ name := jsxName, value := value }, hc.2)

/-- `mergeImports` inner loop over one record's named list: push each pair
whose external name is not yet present in the accumulated list. -/
def mergeNamed (cur : List NamedImport) : List NamedImport → List NamedImport
  | [] => cur
  | n :: ns =>
    if cur.any (fun m => m.imported = n.imported) then mergeNamed cur ns
    else mergeNamed (cur ++ [n]) ns

/-- Merge of one record into the existing record for the same source
(src/script/imports.ts): keep the current default and namespace bindings unless
absent, deduplicate named imports by external name, and clear the type-only
flag as soon as one contributing record is not type-only. -/
def mergeInto (cur imp : ImportInfo) : ImportInfo :=
  { cur with
    defaultImport :=
      if jsTruthyStrOpt imp.defaultImport ∧ ¬ jsTruthyStrOpt cur.defaultImport then
        imp.defaultImport
      else cur.defaultImport,
    namespaceImport :=
      if jsTruthyStrOpt imp.namespaceImport ∧ ¬ jsTruthyStrOpt cur.namespaceImport then
        imp.namespaceImport
      else cur.namespaceImport,
    namedImports := mergeNamed cur.namedImports imp.namedImports,
    typeOnly := cur.typeOnly && imp.typeOnly }

/-- One step of `mergeImports`' fold: the `Map` keyed by source is modelled as
a list with unique sources in insertion order; an unseen source appends a copy
of the record, a seen source merges into its (unique) entry. -/
def mergeStep (acc : List ImportInfo) (imp : ImportInfo) : List ImportInfo :=
  if acc.any (fun cur => cur.source = imp.source) then
    acc.map (fun cur => if cur.source = imp.source then mergeInto cur imp else cur)
  else
    acc ++ [{ source := imp.source, defaultImport := imp.defaultImport,
              namedImports := imp.namedImports, namespaceImport := imp.namespaceImport,
              typeOnly := imp.typeOnly }]

/-- `mergeImports(existing, additional)` from src/script/imports.ts: merge two
arrays of imports, combining records from the same source module; the result
lists one record per distinct source in first-seen order. -/
def mergeImports (existing additional : List ImportInfo) : List ImportInfo :=
  (existing ++ additional).foldl mergeStep []

/-- JavaScript runtime value, as far as the emitted `_renderList` helper
distinguishes values: arrays, plain objects (unique keys), finite numbers
(modelled as rationals — every finite double is a rational; `NaN` and the
infinities are outside the model), strings, booleans, `null`, and
`undefined`. -/
inductive JSValue where
  | arr (elems : List JSValue)
  | obj (fields : List (List Char × JSValue))
  | num (q : ℚ)
  | str (s : List Char)
  | bool (b : Bool)
  | null
  | undef

/-- Numeric value of a digit string. -/
def digitsToNat (s : List Char) : Nat :=
  s.foldl (fun a c => a * 10 + (c.toNat - '0'.toNat)) 0

/-- Test for a JavaScript array-index property key: the canonical decimal
representation (no leading zero except `0` itself) of an integer below
`2^32 - 1`. -/
def isArrayIndexKey (k : List Char) : Bool :=
  k ≠ [] && k.all Char.isDigit && (k = ['0'] || k.head? ≠ some '0') &&
    decide (digitsToNat k < 4294967295)

/-- Ascending insertion (by numeric value) into a sorted list of array-index
keys. -/
def insertByNum (x : List Char) : List (List Char) → List (List Char)
  | [] => [x]
  | y :: ys => if digitsToNat x < digitsToNat y then x :: y :: ys else y :: insertByNum x ys

/-- `Object.keys` ordering on a plain object's own enumerable keys:
array-index keys in ascending numeric order first, then the remaining string
keys in insertion order. -/
def ownKeys (fields : List (List Char × JSValue)) : List (List Char) :=
  let ks := fields.map (·.1)
  (ks.filter isArrayIndexKey).foldl (fun acc k => insertByNum k acc) [] ++
    ks.filter (fun k => ¬ isArrayIndexKey k)

/-- Property read `source[key]` on a plain object (keys are unique). -/
def lookupVal (fields : List (List Char × JSValue)) (k : List Char) : JSValue :=
  match fields.find? (fun f => f.1 = k) with
  | some f => f.2
  | none => JSValue.undef

/-- `ToLength` (ECMA-262), as `Array.from(\x7b length: source \x7d)` applies it
to a finite number: truncate toward zero (for a positive value, the floor),
clamp negatives to zero, and clamp above at `2^53 - 1`. -/
def toLength (q : ℚ) : Nat :=
  if q ≤ 0 then 0 else min ⌊q⌋.toNat 9007199254740991

/-- Semantics of the emitted `_renderList` helper string (`RENDER_LIST_HELPER`
in the script module): `Array.isArray` dispatches first (`Array.prototype.map`
passes element, index, and the array to the callback); `typeof 'number'` is
dispatched next, building `toLength source` pairs — `Array.from` reads the
`length` property through `ToLength`, so a positive non-integer count is
truncated to its floor, not rejected; a truthy `typeof 'object'` value
iterates `(source[key], key, index)` over `Object.keys`; everything else
(including `null`, which is an object by `typeof` but falsy) yields the empty
array. The variadic `renderItem` callback receives its JavaScript argument
list. -/
def renderList (source : JSValue) (renderItem : List JSValue → JSValue) : List JSValue :=
  match source with
  | .arr xs => xs.enum.map (fun iv => renderItem [iv.2, .num (iv.1 : ℚ), .arr xs])
  | .num q => (List.range (toLength q)).map (fun i => renderItem [.num ((i : ℚ) + 1), .num (i : ℚ)])
  | .obj fields =>
    (ownKeys fields).enum.map
      (fun ik => renderItem [lookupVal fields ik.2, .str ik.2, .num (ik.1 : ℚ)])
  | _ => []

/-- Global replace of `/\.vue(['"])/` by the captured quote, applied to raw
side-effect import lines during assembly. -/
def replaceVueQuoteGo (s : List Char) (fuel : Nat) : List Char :=
  match fuel with
  | 0 => []
  | fuel + 1 =>
    match s with
    | [] => []
    | c :: rest =>
      if ".vue'".toList.isPrefixOf (c :: rest) ∨ ".vue\"".toList.isPrefixOf (c :: rest) then
        (c :: rest).getD 4 ' ' :: replaceVueQuoteGo ((c :: rest).drop 5) fuel
      else c :: replaceVueQuoteGo rest fuel

/-- Final assembly of `fromScriptSetup` (the `lines` construction after the
setup body has been built): structured imports, hoisted side-effect imports
(with `.vue` stripped before a quote), a blank separator when anything
preceded, the `defineComponent` call with its options and setup body, and —
after the closing `\x7d)` — a blank line and the hoisted export statements.
The already-computed pieces are passed in; `rawImports` and `rawExports` are
the corresponding fields of the Extracted Macro Set. -/
def assembleComponentLines (importStr : List Char) (rawImports : List (List Char))
    (componentOptions : List (List Char)) (setupSig : List Char)
    (indentedBody : List Char) : List (List Char) :=
  let lines1 : List (List Char) := if importStr ≠ [] then [importStr] else []
  let lines2 := lines1 ++
    (if rawImports ≠ [] then
      [joinSep "\n".toList (rawImports.map (fun t => replaceVueQuoteGo t (t.length + 1)))]
    else [])
  let lines3 := lines2 ++ (if lines2.length > 0 then [([] : List Char)] else [])
  (lines3 ++ ["export default defineComponent(\x7b".toList] ++ componentOptions ++
    ["  ".toList ++ setupSig ++ " \x7b".toList] ++ [indentedBody] ++
    ["  \x7d".toList]) ++ ["\x7d)".toList]

/-- Continuation of `assembleComponentLines`: the last pushes of
`fromScriptSetup` and the final `lines.join("\n")`. -/
def fromScriptSetupAssemble (importStr : List Char) (rawImports : List (List Char))
    (componentOptions : List (List Char)) (setupSig : List Char)
    (indentedBody : List Char) (rawExports : List (List Char)) : List Char :=
  let lines4 := assembleComponentLines importStr rawImports componentOptions setupSig indentedBody
  let lines5 := lines4 ++ (if rawExports ≠ [] then [[], joinSep "\n".toList rawExports] else [])
  joinSep "\n".toList lines5

/-- Projection used to discriminate render-list outputs: the string payload of
the head element when it is a string value. -/
def headKeyOf (l : List JSValue) : List Char :=
  match l.headD JSValue.undef with
  | JSValue.str t => t
  | _ => []

/-! Helper lemmas. -/

theorem joinSep_concat (sep y : List Char) :
    ∀ xs : List (List Char), xs ≠ [] →
      joinSep sep (xs ++ [y]) = joinSep sep xs ++ sep ++ y := by
  intro xs
  induction xs with
  | nil => intro h; exact absurd rfl h
  | cons x rest ih =>
    intro _
    cases rest with
    | nil => simp [joinSep]
    | cons r t =>
      have h2 := ih (by simp)
      simp only [List.cons_append, List.append_eq, joinSep] at h2 ⊢
      rw [h2]
      simp [List.append_assoc]

theorem joinSep_getLast (sep : List Char) :
    ∀ (xs : List (List Char)) (y : List Char), xs.getLast? = some y →
      ∃ pre, joinSep sep xs = pre ++ y := by
  intro xs
  induction xs with
  | nil => intro y h; simp at h
  | cons x rest ih =>
    intro y h
    cases rest with
    | nil =>
      simp [List.getLast?] at h
      exact ⟨[], by simp [joinSep, h]⟩
    | cons r t =>
      have h' : (r :: t).getLast? = some y := by
        rw [List.getLast?_cons_cons] at h
        exact h
      obtain ⟨pre, hpre⟩ := ih y h'
      exact ⟨x ++ sep ++ pre, by simp [joinSep, hpre]⟩

theorem joinSep_count (sep : List Char) (ch : Char) (hsep : sep.count ch = 0) :
    ∀ xs : List (List Char),
      (joinSep sep xs).count ch = (xs.map (fun t => t.count ch)).sum := by
  intro xs
  induction xs with
  | nil => simp [joinSep]
  | cons x rest ih =>
    cases rest with
    | nil => simp [joinSep]
    | cons r t =>
      simp only [joinSep, List.count_append, List.map_cons, List.sum_cons] at ih ⊢
      omega

theorem mbLoop_first_close (s : List Char) (o c : Char) (hoc : o ≠ c) :
    ∀ (fuel i j : Nat), i ≤ j → j < s.length → s.getD j ' ' = c →
      (∀ k, i ≤ k → k < j → s.getD k ' ' ≠ o ∧ s.getD k ' ' ≠ c) →
      j - i < fuel → mbLoop s o c 1 i fuel = some j := by
  intro fuel
  induction fuel with
  | zero => intro i j _ _ _ _ h; omega
  | succ f ih =>
    intro i j hij hj hcj hmid hfuel
    have hi : i < s.length := lt_of_le_of_lt hij hj
    by_cases heq : i = j
    · subst heq
      have hco : ¬ (c = o) := fun h => hoc h.symm
      have hcj' := hcj
      simp only [List.getD_eq_getElem?_getD, List.getElem?_eq_getElem hi,
        Option.getD_some] at hcj'
      simp [mbLoop, hi, hcj', hco]
    · have hlt : i < j := lt_of_le_of_ne hij heq
      have h1 := hmid i le_rfl hlt
      simp only [List.getD_eq_getElem?_getD, List.getElem?_eq_getElem hi,
        Option.getD_some] at h1
      simp [mbLoop, hi, h1.1, h1.2]
      exact ih (i + 1) j hlt hj hcj
        (fun k hk1 hk2 => hmid k (le_of_lt (lt_of_lt_of_le (Nat.lt_succ_self i) hk1)) hk2)
        (by omega)

/-- C1 (counterexample): the balanced scan does not track all four bracket
kinds.  For the setup text `defineEmits<{ f: (x: number) => void }>()` the
angle-bracket region opened at index 11 is truncated at the first `>` — the
one inside the function type's `=>`, at index 30 — rather than matched to the
closing bracket of the whole region, and the macro is then treated as absent
(`findMacro` returns nothing and the extracted emits record is null). -/
theorem c1_counterexample :
    matchBalanced "defineEmits<\x7b f: (x: number) => void \x7d>()".toList 11 '<' '>'
        = some ("\x7b f: (x: number) =".toList, 30) ∧
      findMacro "defineEmits<\x7b f: (x: number) => void \x7d>()".toList
        "defineEmits".toList = none ∧
      (extractMacros "const emit = defineEmits<\x7b f: (x: number) => void \x7d>()\n".toList).emits
        = none := by
  refine ⟨by decide, by decide, by decide⟩

/-- C1 (amended): the balanced scan of a macro's angle-bracket type-argument
region tracks nesting depth only for the single `<`/`>` delimiter pair it is
given; every other character — including the other three bracket kinds and the
`>` of a function type's `=>` — leaves the depth unchanged, so the region ends
at the first `>` not compensated by a nested `<`.  In particular a type
argument containing a function type is truncated at the `=>` and the macro is
then treated as absent. -/
theorem c1_balanced_scan_truncates (s : List Char) (i j : Nat) (hij : i < j)
    (hj : j < s.length) (hopen : s.getD i ' ' = '<') (hclose : s.getD j ' ' = '>')
    (hmid : ∀ k < j, i < k → s.getD k ' ' ≠ '<' ∧ s.getD k ' ' ≠ '>') :
    matchBalanced s i '<' '>' = some ((s.take j).drop (i + 1), j) := by
  have hi : i < s.length := lt_trans hij hj
  rw [matchBalanced, if_pos ⟨hi, hopen⟩]
  rw [mbLoop_first_close s '<' '>' (by decide) (s.length + 1) (i + 1) j hij hj hclose
    (fun k hk1 hk2 => hmid k hk2 (lt_of_lt_of_le (Nat.lt_succ_self i) hk1))
    (by omega)]

/-- Witness for C1's amended theorem at the function-type example: the region
opened at index 11 contains `\x7b`, `(`, `)` (ignored) and is truncated at the
`>` of `=>` (index 30). -/
theorem c1_balanced_scan_truncates_witness :
    (11 < 30 ∧
      "defineEmits<\x7b f: (x: number) => void \x7d>()".toList.getD 11 ' ' = '<' ∧
      "defineEmits<\x7b f: (x: number) => void \x7d>()".toList.getD 30 ' ' = '>') ∧
    matchBalanced "defineEmits<\x7b f: (x: number) => void \x7d>()".toList 11 '<' '>'
      = some ("\x7b f: (x: number) =".toList, 30) := by
  refine ⟨⟨by decide, by decide, by decide⟩, ?_⟩
  have h := c1_balanced_scan_truncates
    "defineEmits<\x7b f: (x: number) => void \x7d>()".toList 11 30
    (by decide) (by decide) (by decide) (by decide) (by decide)
  simpa using h

theorem macroRecord_no_both (s : List Char) (a : Nat) (tpo : Option (List Char))
    (pr : List Char × Nat) :
    ∀ t, (macroRecord s a tpo pr).typeParam = some t → t ≠ [] →
      (macroRecord s a tpo pr).runtimeArg = none := by
  intro t ht htne
  simp only [macroRecord] at ht ⊢
  subst ht
  simp [jsTruthyStrOpt, htne]

theorem macroAtMatch_no_both (s : List Char) (a b : Nat) (r : MacroFind)
    (hm : macroAtMatch s a b = some r) :
    ∀ t, r.typeParam = some t → t ≠ [] → r.runtimeArg = none := by
  simp only [macroAtMatch] at hm
  repeat' split at hm
  all_goals
    first
      | (injection hm with hm'; subst hm'; apply macroRecord_no_both)
      | exact absurd hm (by simp)

theorem findMacroLoop_no_both (s nm : List Char) :
    ∀ (fuel cursor : Nat) (r : MacroFind), findMacroLoop s nm cursor fuel = some r →
      ∀ t, r.typeParam = some t → t ≠ [] → r.runtimeArg = none := by
  intro fuel
  induction fuel with
  | zero => intro cursor r h; simp [findMacroLoop] at h
  | succ f ih =>
    intro cursor r h
    rw [findMacroLoop] at h
    split at h
    · exact absurd h (by simp)
    · split at h
      · injection h with h'
        subst h'
        apply macroAtMatch_no_both
        assumption
      · exact ih _ r h

theorem optTruthy_eq_some (o : Option (List Char)) (t : List Char)
    (h : optTruthy o = some t) : o = some t ∧ t ≠ [] := by
  cases o with
  | none => simp [optTruthy] at h
  | some u =>
    simp only [optTruthy] at h
    split at h
    · exact absurd h (by simp)
    · injection h with h'
      subst h'
      constructor
      · rfl
      · assumption

/-- C5: when a known macro name's balanced scan fails — `findMacro` finds no
completed occurrence (unbalanced delimiters ran to the end of the text, or the
required opening parenthesis is missing) — the extractor records that macro as
absent (`none` in the Extracted Macro Set); the extraction is a total function,
so the remaining macros and the body are still computed. -/
theorem c5_failed_scan_macro_absent (content : List Char) :
    (findMacro content "defineEmits".toList = none → (extractMacros content).emits = none) ∧
    (findMacro content "defineSlots".toList = none → (extractMacros content).slots = none) ∧
    (findMacro content "defineExpose".toList = none → (extractMacros content).expose = none) ∧
    (findMacro content "defineOptions".toList = none → (extractMacros content).options = none) ∧
    (findWithDefaults content = none → findMacro content "defineProps".toList = none →
      (extractMacros content).props = none) := by
  refine ⟨?_, ?_, ?_, ?_, ?_⟩
  · intro h; simp [extractMacros, h]; exact h
  · intro h; simp [extractMacros, h]; exact h
  · intro h; simp [extractMacros, h]; exact h
  · intro h; simp [extractMacros, h]; exact h
  · intro h1 h2; simp [extractMacros, h1, h2]; exact h2

/-- Witness for C5: in a script whose `defineEmits` call never closes its
parenthesis the scan fails, the emits record is null, and the extraction still
completes — the surrounding `defineProps` is still extracted. -/
theorem c5_failed_scan_macro_absent_witness :
    findMacro "const emit = defineEmits('u'\nconst props = defineProps<P>()\n".toList
        "defineEmits".toList = none ∧
      (extractMacros "const emit = defineEmits('u'\nconst props = defineProps<P>()\n".toList).emits
        = none :=
  ⟨by decide,
    (c5_failed_scan_macro_absent
      "const emit = defineEmits('u'\nconst props = defineProps<P>()\n".toList).1 (by decide)⟩

/-- C10: a macro occurrence handled by the general macro finder never records
both a type argument and a runtime argument: whenever the extracted type
parameter is truthy, the runtime argument is discarded.  Consequently an
extracted emits or props record never holds both a type-literal form and a
runtime-literal form (the `withDefaults` wrapper stores type plus defaults,
with no runtime field). -/
theorem c10_type_argument_discards_runtime (content nm : List Char) :
    (∀ r, findMacro content nm = some r →
      ∀ t, r.typeParam = some t → t ≠ [] → r.runtimeArg = none) ∧
    (∀ e, (extractMacros content).emits = some e → e.type.isSome → e.runtime = none) ∧
    (∀ p, (extractMacros content).props = some p → p.type.isSome → p.runtime = none) := by
  refine ⟨?_, ?_, ?_⟩
  · intro r h
    exact findMacroLoop_no_both content nm _ 0 r h
  · intro e he hts
    simp only [extractMacros] at he
    rcases hfm : findMacro content "defineEmits".toList with _ | r
    · rw [hfm] at he; simp at he
    · rw [hfm] at he
      injection he with he'
      subst he'
      simp only [Option.isSome_iff_exists] at hts
      obtain ⟨t, ht⟩ := hts
      obtain ⟨ht1, ht2⟩ := optTruthy_eq_some _ _ ht
      have := findMacroLoop_no_both content "defineEmits".toList _ 0 r hfm t ht1 ht2
      simp [this, optTruthy]
  · intro p hp hts
    simp only [extractMacros] at hp
    rcases hwd : findWithDefaults content with _ | w
    · rw [hwd] at hp
      rcases hfm : findMacro content "defineProps".toList with _ | r
      · rw [hfm] at hp; simp at hp
      · rw [hfm] at hp
        injection hp with hp'
        subst hp'
        simp only [Option.isSome_iff_exists] at hts
        obtain ⟨t, ht⟩ := hts
        obtain ⟨ht1, ht2⟩ := optTruthy_eq_some _ _ ht
        have := findMacroLoop_no_both content "defineProps".toList _ 0 r hfm t ht1 ht2
        simp [this, optTruthy]
    · rw [hwd] at hp
      injection hp with hp'
      subst hp'
      rfl

/-- Witness for C10: `defineEmits<Foo>(['a'])` carries both a type argument and
a nonempty runtime argument; the extracted record keeps only the type. -/
theorem c10_type_argument_discards_runtime_witness :
    (extractMacros "const emit = defineEmits<Foo>(['a'])\n".toList).emits
        = some ⟨some "Foo".toList, none⟩ ∧
      (⟨some "Foo".toList, none⟩ : EmitsMacro).runtime = none :=
  ⟨by decide,
    (c10_type_argument_discards_runtime "const emit = defineEmits<Foo>(['a'])\n".toList
      "defineEmits".toList).2.1 ⟨some "Foo".toList, none⟩ (by decide) (by decide)⟩


theorem appendGo_copy (s nm : List Char) :
    ∀ fuel p, (∀ q, p ≤ q → q < s.length → refMatchAt s nm q = false) →
      s.length - p < fuel → appendGo s nm p fuel = s.drop p := by
  intro fuel
  induction fuel with
  | zero => intro p _ h; omega
  | succ f ih =>
    intro p hq hf
    rw [appendGo]
    by_cases hp : p < s.length
    · rw [if_pos hp, hq p le_rfl hp]
      simp only [Bool.false_eq_true, if_false]
      rw [ih (p + 1) (fun q h1 h2 => hq q (by omega) h2) (by omega)]
      rw [List.drop_eq_getElem_cons hp]
      simp [List.getD_eq_getElem?_getD, List.getElem?_eq_getElem hp]
    · rw [if_neg hp]
      rw [List.drop_eq_nil_of_le (by omega)]

/-- C8: the value-accessor rewrite is idempotent on already-rewritten text —
for a reactive-reference name (an identifier made of word characters), applying
`appendRefValue` to an expression in which the occurrence of the name is
already followed by `.value` (possibly continuing with a further word-or-dot
member chain starting at a `.`) leaves the text unchanged; in particular it
never produces `name.value.value`. -/
theorem c8_value_rewrite_idempotent (nm post : List Char)
    (h2 : ∀ c ∈ nm, isWordChar c) (h3 : ∀ c ∈ post, isWordDot c)
    (h4 : post = [] ∨ post.head? = some '.') :
    appendRefValue (nm ++ ".value".toList ++ post) [nm]
      = nm ++ ".value".toList ++ post := by
  set s := nm ++ ".value".toList ++ post with hs
  have hall : ∀ c ∈ s, isWordDot c := by
    intro c hc
    rw [hs] at hc
    simp only [List.append_assoc, List.mem_append] at hc
    rcases hc with h | h | h
    · simp [isWordDot, h2 c h]
    · fin_cases h <;> decide
    · exact h3 c h
  have hmatch : ∀ q, 0 ≤ q → q < s.length → refMatchAt s nm q = false := by
    intro q _ hq
    by_cases hq0 : q = 0
    · subst hq0
      -- the (?!\.value\b) conjunct is violated at the occurrence itself
      have hdrop : s.drop nm.length = ".value".toList ++ post := by
        rw [hs, List.append_assoc, List.drop_left]
      have hpre : ".value".toList <+: s.drop nm.length := by
        rw [hdrop]
        exact List.prefix_append _ _
      have hbound : s.length ≤ nm.length + 6 ∨
          isWordChar (s[nm.length + 6]?.getD ' ') = false := by
        rcases h4 with h | h
        · left
          subst h
          simp [hs]
        · right
          have hg : s[nm.length + 6]? = some '.' := by
            cases post with
            | nil => simp at h
            | cons c rest =>
              injection h with h'
              subst h'
              rw [hs, List.append_assoc, List.getElem?_append_right (by simp)]
              simp
          rw [hg]
          decide
      simp only [refMatchAt]
      simp
      intro _ _ hcontra
      rcases hcontra with hc | hc
      · exact absurd hpre hc
      · rcases hbound with hb | hb
        · omega
        · rw [hb] at hc
          exact absurd hc.2 (by simp)
    · have hq1 : q - 1 < s.length := by omega
      have hmem : s.getD (q - 1) ' ' ∈ s := by
        rw [List.getD_eq_getElem?_getD, List.getElem?_eq_getElem hq1]
        simp only [Option.getD_some]
        exact List.getElem_mem _
      have hwd : isWordDot (s.getD (q - 1) ' ') = true := hall _ hmem
      rw [List.getD_eq_getElem?_getD] at hwd
      simp [refMatchAt, hq0, hwd]
  have : appendGo s nm 0 (s.length + 1) = s := by
    rw [appendGo_copy s nm (s.length + 1) 0 (fun q _ h2' => hmatch q (by omega) h2') (by omega)]
    simp
  simpa [appendRefValue] using this


/-- Witness for C8 at the reactive name `count`: rewriting `count.value` keeps
it unchanged. -/
theorem c8_value_rewrite_idempotent_witness :
    (∀ c ∈ "count".toList, isWordChar c) ∧
      appendRefValue "count.value".toList ["count".toList] = "count.value".toList := by
  refine ⟨by decide, ?_⟩
  have h := c8_value_rewrite_idempotent "count".toList [] (by decide) (by simp) (Or.inl rfl)
  simpa using h

/-- C3: with reactive-reference set `\x7bx\x7d` and component-input set
`\x7by\x7d`, rewriting `\x7b x: x, y \x7d` leaves the object-key token `x`
unrewritten (a bare name followed by `:` inside an open, unmatched `\x7b` is in
key position), rewrites the shorthand `y` to `props.y`, and rewrites the value
occurrence of `x` to `x.value`. -/
theorem c3_object_key_exclusion :
    (rewriteTemplateGlobals "\x7b x: x, y \x7d".toList
        ⟨["x".toList], ["y".toList], [], []⟩).1
      = "\x7b x: x.value, props.y \x7d".toList := by decide

/-- C7: the event directive `@click.stop.prevent="handler"` maps to a prop
named `onClick` — no capture suffix, since `stop` and `prevent` are not the
capture modifier — whose value wraps the bare identifier handler in
`withModifiers(handler, ['stop', 'prevent'])`; the fixed native modifier set
only ever affects the prop name. -/
theorem c7_event_modifiers :
    (processEvent
        ⟨"on".toList, some "click".toList, some "handler".toList,
          ["stop".toList, "prevent".toList]⟩
        ⟨[], [], [], []⟩).1
      = ⟨"onClick".toList, "withModifiers(handler, ['stop', 'prevent'])".toList⟩ ∧
    "Capture".toList.isSuffixOf
        (processEvent
          ⟨"on".toList, some "click".toList, some "handler".toList,
            ["stop".toList, "prevent".toList]⟩
          ⟨[], [], [], []⟩).1.name = false := by
  refine ⟨by decide, by decide⟩

theorem mergeNamed_mem : ∀ (ns cur : List NamedImport) (x : List Char),
    x ∈ (mergeNamed cur ns).map NamedImport.imported ↔
      x ∈ cur.map NamedImport.imported ∨ x ∈ ns.map NamedImport.imported := by
  intro ns
  induction ns with
  | nil => intro cur x; simp [mergeNamed]
  | cons n t ih =>
    intro cur x
    rw [mergeNamed]
    split
    · rename_i hany
      rw [ih]
      have hmem : n.imported ∈ cur.map NamedImport.imported := by
        simp only [List.any_eq_true, decide_eq_true_eq] at hany
        obtain ⟨m, hm, he⟩ := hany
        exact List.mem_map.mpr ⟨m, hm, he⟩
      simp only [List.map_cons, List.mem_cons]
      constructor
      · rintro (h | h)
        · exact Or.inl h
        · exact Or.inr (Or.inr h)
      · rintro (h | h | h)
        · exact Or.inl h
        · subst h; exact Or.inl hmem
        · exact Or.inr h
    · rw [ih]
      simp only [List.map_append, List.mem_append, List.map_cons, List.mem_cons,
        List.map_nil, List.mem_singleton]
      tauto

theorem mergeNamed_nodup : ∀ (ns cur : List NamedImport),
    (cur.map NamedImport.imported).Nodup →
      ((mergeNamed cur ns).map NamedImport.imported).Nodup := by
  intro ns
  induction ns with
  | nil => intro cur h; simpa [mergeNamed]
  | cons n t ih =>
    intro cur h
    rw [mergeNamed]
    split
    · exact ih cur h
    · rename_i hany
      apply ih
      rw [List.map_append]
      rw [List.nodup_append]
      refine ⟨h, by simp, ?_⟩
      intro a ha hb
      simp only [List.map_cons, List.map_nil, List.mem_singleton] at hb
      subst hb
      simp only [List.any_eq_true, decide_eq_true_eq] at hany
      obtain ⟨m, hm, he⟩ := List.mem_map.mp ha
      exact hany ⟨m, hm, he⟩

/-- C4: merging two import records that share a source module yields exactly
one record for that source; its named list is the union under set semantics on
the external name (membership matches the union, and no duplicate is
introduced when the first record's names were duplicate-free), and the merged
record is type-only if and only if both contributing records are type-only —
in particular a type-only record merged with a non-type-only record is
non-type-only. -/
theorem c4_merge_imports (r1 r2 : ImportInfo) (hsrc : r1.source = r2.source) :
    ∃ m, mergeImports [r1] [r2] = [m] ∧ m.source = r1.source ∧
      m.typeOnly = (r1.typeOnly && r2.typeOnly) ∧
      (∀ x, x ∈ m.namedImports.map NamedImport.imported ↔
        x ∈ r1.namedImports.map NamedImport.imported ∨
          x ∈ r2.namedImports.map NamedImport.imported) ∧
      ((r1.namedImports.map NamedImport.imported).Nodup →
        (m.namedImports.map NamedImport.imported).Nodup) := by
  have step1 : mergeImports [r1] [r2] = mergeStep (mergeStep [] r1) r2 := by
    simp [mergeImports]
  have step2 : mergeStep [] r1 =
      [{ source := r1.source, defaultImport := r1.defaultImport,
         namedImports := r1.namedImports, namespaceImport := r1.namespaceImport,
         typeOnly := r1.typeOnly }] := by
    simp [mergeStep]
  rw [step1, step2]
  have step3 : mergeStep
      [{ source := r1.source, defaultImport := r1.defaultImport,
         namedImports := r1.namedImports, namespaceImport := r1.namespaceImport,
         typeOnly := r1.typeOnly }] r2 =
      [mergeInto
        { source := r1.source, defaultImport := r1.defaultImport,
          namedImports := r1.namedImports, namespaceImport := r1.namespaceImport,
          typeOnly := r1.typeOnly } r2] := by
    simp [mergeStep, hsrc]
  rw [step3]
  refine ⟨_, rfl, ?_, ?_, ?_, ?_⟩
  · simp [mergeInto]
  · simp [mergeInto]
  · intro x
    simp only [mergeInto]
    exact mergeNamed_mem r2.namedImports _ x
  · intro h
    simp only [mergeInto]
    exact mergeNamed_nodup r2.namedImports _ h

/-- Witness for C4: records for source `m` with disjoint named lists `a` and
`b`, one type-only and one not. -/
theorem c4_merge_imports_witness :
    ImportInfo.source
        { source := "m".toList, namedImports := [⟨"a".toList, "a".toList⟩], typeOnly := true }
      = ImportInfo.source
        { source := "m".toList, namedImports := [⟨"b".toList, "b".toList⟩], typeOnly := false } ∧
    ∃ m, mergeImports
        [{ source := "m".toList, namedImports := [⟨"a".toList, "a".toList⟩], typeOnly := true }]
        [{ source := "m".toList, namedImports := [⟨"b".toList, "b".toList⟩], typeOnly := false }]
        = [m] ∧
      m.source = "m".toList ∧
      m.typeOnly = (true && false) ∧
      (∀ x, x ∈ m.namedImports.map NamedImport.imported ↔
        x ∈ [(⟨"a".toList, "a".toList⟩ : NamedImport)].map NamedImport.imported ∨
          x ∈ [(⟨"b".toList, "b".toList⟩ : NamedImport)].map NamedImport.imported) ∧
      (([(⟨"a".toList, "a".toList⟩ : NamedImport)].map NamedImport.imported).Nodup →
        (m.namedImports.map NamedImport.imported).Nodup) :=
  ⟨rfl, c4_merge_imports _ _ rfl⟩

theorem lookupVal_nodup : ∀ (fields : List (List Char × JSValue)),
    (fields.map Prod.fst).Nodup →
      ∀ kv ∈ fields, lookupVal fields kv.1 = kv.2 := by
  intro fields
  induction fields with
  | nil => intro _ kv h; simp at h
  | cons x rest ih =>
    intro hnd kv hkv
    simp only [List.map_cons, List.nodup_cons] at hnd
    rcases List.mem_cons.mp hkv with hkv2 | hkv2
    · subst hkv2
      simp [lookupVal]
    · have hne : ¬ (x.1 = kv.1) := by
        intro he
        exact hnd.1 (he ▸ List.mem_map.mpr ⟨kv, hkv2, rfl⟩)
      rw [lookupVal]
      rw [List.find?_cons_of_neg _ (by simpa using hne)]
      exact ih hnd.2 kv hkv2

theorem ownKeys_no_index (fields : List (List Char × JSValue))
    (h : ∀ k ∈ fields.map Prod.fst, isArrayIndexKey k = false) :
    ownKeys fields = fields.map Prod.fst := by
  rw [ownKeys]
  have h1 : (fields.map Prod.fst).filter isArrayIndexKey = [] := by
    rw [List.filter_eq_nil_iff]
    intro a ha
    simp [h a ha]
  have h2 : (fields.map Prod.fst).filter (fun k => ¬ isArrayIndexKey k) = fields.map Prod.fst := by
    rw [List.filter_eq_self]
    intro a ha
    simp [h a ha]
  rw [h1, h2]
  simp

theorem c6_obj_enum (f : List JSValue → JSValue)
    (full : List (List Char × JSValue))
    (hl : ∀ kv ∈ full, lookupVal full kv.1 = kv.2) :
    ∀ (fields : List (List Char × JSValue)) (n : Nat), fields ⊆ full →
      (List.enumFrom n (fields.map Prod.fst)).map
          (fun ik => f [lookupVal full ik.2, .str ik.2, .num (ik.1 : ℚ)])
        = (List.enumFrom n fields).map
            (fun ikv => f [ikv.2.2, .str ikv.2.1, .num (ikv.1 : ℚ)]) := by
  intro fields
  induction fields with
  | nil => intro n _; simp
  | cons kv rest ih =>
    intro n hsub
    simp only [List.map_cons, List.enumFrom_cons, List.map_cons]
    rw [hl kv (hsub (by simp))]
    rw [ih (n + 1) (fun a ha => hsub (List.mem_cons_of_mem _ ha))]

/-- C6 (amended): the emitted list-iteration helper maps a callback directly
over an array's elements; iterates `(value, key, index)` triples over a plain
object's own enumerable keys — in insertion order provided no key is an
array-index string (JavaScript's own-key order otherwise places array-index
keys first, in ascending numeric order); for a number, iterates `(n+1, n)`
pairs for `n` in `[0, L)` where `L` is the ECMA-262 `ToLength` of the count —
exactly `count` pairs for a non-negative integer count in range, `⌊count⌋`
pairs (not an empty result) for a positive non-integer count, and none for a
non-positive count; and yields an empty result for strings, booleans, `null`
and `undefined`. -/
theorem c6_render_list_amended (f : List JSValue → JSValue) :
    (∀ xs, renderList (.arr xs) f
        = xs.enum.map (fun iv => f [iv.2, .num (iv.1 : ℚ), .arr xs])) ∧
    (∀ fields, (∀ k ∈ fields.map Prod.fst, isArrayIndexKey k = false) →
      (fields.map Prod.fst).Nodup →
      renderList (.obj fields) f
        = fields.enum.map (fun ikv => f [ikv.2.2, .str ikv.2.1, .num (ikv.1 : ℚ)])) ∧
    (∀ n : Nat, n ≤ 9007199254740991 → renderList (.num (n : ℚ)) f
        = (List.range n).map (fun i => f [.num ((i : ℚ) + 1), .num (i : ℚ)])) ∧
    (∀ q : ℚ, 0 < q → q ≤ 9007199254740991 → renderList (.num q) f
        = (List.range ⌊q⌋.toNat).map (fun i => f [.num ((i : ℚ) + 1), .num (i : ℚ)])) ∧
    (∀ q : ℚ, q ≤ 0 → renderList (.num q) f = []) ∧
    (∀ t, renderList (.str t) f = []) ∧
    (∀ b, renderList (.bool b) f = []) ∧
    renderList .null f = [] ∧
    renderList .undef f = [] := by
  have hlen : ∀ q : ℚ, 0 < q → q ≤ 9007199254740991 → toLength q = ⌊q⌋.toNat := by
    intro q hq hle
    rw [toLength, if_neg (not_le.mpr hq)]
    have h1 : ⌊q⌋ ≤ (9007199254740991 : ℤ) := by
      have h2 := Int.floor_le_floor hle
      simpa using h2
    exact Nat.min_eq_left (by omega)
  refine ⟨fun xs => rfl, ?_, ?_, ?_, ?_, fun t => rfl, fun b => rfl, rfl, rfl⟩
  · intro fields hidx hnd
    rw [renderList]
    rw [ownKeys_no_index fields hidx]
    have := c6_obj_enum f fields (lookupVal_nodup fields hnd) fields 0 (fun a ha => ha)
    simpa [List.enum] using this
  · intro n hn
    rw [renderList]
    rcases Nat.eq_zero_or_pos n with h0 | hpos
    · subst h0; simp [toLength]
    · rw [hlen (n : ℚ) (by exact_mod_cast hpos) (by exact_mod_cast hn)]
      rw [Int.floor_natCast]
      simp
  · intro q hq hle
    rw [renderList, hlen q hq hle]
  · intro q hq
    rw [renderList, toLength, if_pos hq]
    simp

/-- C6 (counterexample): the original claim fails twice. For a plain object
whose keys are the array-index strings `1` and `0` in that insertion order,
the helper does not iterate in insertion order — `Object.keys` enumerates `0`
before `1`. And the number `5/2`, which the original claim's catch-all clause
(not an array, object or non-negative integer) asserts yields an empty
result, yields a non-empty one: `Array.from(\x7b length: 2.5 \x7d)` truncates
the length to `2`. -/
theorem c6_counterexample :
    (renderList
        (.obj [("1".toList, JSValue.str "x".toList), ("0".toList, JSValue.str "y".toList)])
        (fun args => args.getD 1 JSValue.undef)
      ≠ [("1".toList, JSValue.str "x".toList), ("0".toList, JSValue.str "y".toList)].enum.map
          (fun ikv => (fun args => args.getD 1 JSValue.undef)
            [ikv.2.2, .str ikv.2.1, .num (ikv.1 : ℚ)])) ∧
    renderList (.num ((5 : ℚ) / 2)) (fun args => args.getD 1 JSValue.undef) ≠ [] := by
  constructor
  · intro h
    have h2 := congrArg headKeyOf h
    exact absurd h2 (by decide)
  · intro h
    rw [renderList] at h
    have h4 : ⌊(5 : ℚ) / 2⌋ = 2 := by
      rw [Int.floor_eq_iff]
      constructor <;> norm_num
    have h3 : toLength ((5 : ℚ) / 2) = 2 := by
      rw [toLength, if_neg (by norm_num), h4]
      decide
    rw [h3] at h
    simp at h
    exact absurd (h 0) (by decide)

/-- Witness for C6's amended theorem: an object with non-index keys `b`, `a`
iterates in insertion order, and the positive non-integer count `5/2` yields
`⌊5/2⌋ = 2` pairs. -/
theorem c6_render_list_amended_witness :
    (∀ k ∈ [("b".toList, JSValue.num 1), ("a".toList, JSValue.num 2)].map Prod.fst,
        isArrayIndexKey k = false) ∧
    renderList (.obj [("b".toList, JSValue.num 1), ("a".toList, JSValue.num 2)])
        (fun args => JSValue.arr args)
      = [("b".toList, JSValue.num 1), ("a".toList, JSValue.num 2)].enum.map
          (fun ikv => JSValue.arr [ikv.2.2, .str ikv.2.1, .num (ikv.1 : ℚ)]) ∧
    (0 : ℚ) < (5 : ℚ) / 2 ∧
    renderList (.num ((5 : ℚ) / 2)) (fun args => JSValue.arr args)
      = (List.range 2).map
          (fun i => JSValue.arr [.num ((i : ℚ) + 1), .num (i : ℚ)]) := by
  refine ⟨by decide,
    (c6_render_list_amended (fun args => JSValue.arr args)).2.1 _ (by decide) (by decide),
    by norm_num, ?_⟩
  have h := (c6_render_list_amended (fun args => JSValue.arr args)).2.2.2.1
    ((5 : ℚ) / 2) (by norm_num) (by norm_num)
  rw [h]
  have h4 : ⌊(5 : ℚ) / 2⌋ = 2 := by
    rw [Int.floor_eq_iff]
    constructor <;> norm_num
  rw [h4]
  rfl

theorem joinSep_split_two (L : List (List Char)) (hL : L ≠ []) (ex : List Char) :
    joinSep "\n".toList (L ++ [[], ex])
      = joinSep "\n".toList L ++ "\n\n".toList ++ ex := by
  rw [show L ++ [[], ex] = (L ++ [[]]) ++ [ex] by simp]
  rw [joinSep_concat _ _ (L ++ [[]]) (by simp)]
  rw [joinSep_concat _ _ L hL]
  simp

theorem assembleComponentLines_ne_nil (i ss b : List Char) (ri co : List (List Char)) :
    assembleComponentLines i ri co ss b ≠ [] := by
  simp [assembleComponentLines]

theorem assembleComponentLines_getLast (i ss b : List Char) (ri co : List (List Char)) :
    (assembleComponentLines i ri co ss b).getLast? = some "\x7d)".toList := by
  rw [assembleComponentLines]
  rw [List.getLast?_concat]

/-- C9: hoisted export statements appear in the assembled module text strictly
after the closing `\x7d)` of the generated `defineComponent` call, never inside
the setup body: with a nonempty `rawExports` field from the extractor, the
assembled text is exactly the export-free assembly — which ends at the
component definition's closing `\x7d)` — followed by a blank line and the
joined export statements. -/
theorem c9_exports_after_component (content importStr setupSig indentedBody : List Char)
    (componentOptions : List (List Char))
    (hex : (extractMacros content).rawExports ≠ []) :
    fromScriptSetupAssemble importStr (extractMacros content).rawImports componentOptions
        setupSig indentedBody (extractMacros content).rawExports
      = fromScriptSetupAssemble importStr (extractMacros content).rawImports componentOptions
          setupSig indentedBody []
        ++ "\n\n".toList ++ joinSep "\n".toList (extractMacros content).rawExports ∧
    "\x7d)".toList.isSuffixOf
      (fromScriptSetupAssemble importStr (extractMacros content).rawImports componentOptions
        setupSig indentedBody []) = true := by
  constructor
  · rw [fromScriptSetupAssemble, fromScriptSetupAssemble]
    rw [if_pos hex]
    rw [if_neg (by simp : ¬ (([] : List (List Char)) ≠ []))]
    rw [List.append_nil]
    exact joinSep_split_two _ (assembleComponentLines_ne_nil _ _ _ _ _) _
  · rw [fromScriptSetupAssemble]
    rw [if_neg (by simp : ¬ (([] : List (List Char)) ≠ []))]
    rw [List.append_nil]
    obtain ⟨pre, hpre⟩ := joinSep_getLast "\n".toList _ _
      (assembleComponentLines_getLast importStr setupSig indentedBody
        (extractMacros content).rawImports componentOptions)
    rw [hpre]
    rw [List.isSuffixOf_iff_suffix]
    exact List.suffix_append pre _

/-- Witness for C9: a setup script containing `export const a = 1` yields a
nonempty hoisted-export list, and the assembly splits after the component
definition. -/
theorem c9_exports_after_component_witness :
    (extractMacros "export const a = 1\nconst b = 2\n".toList).rawExports ≠ [] ∧
    fromScriptSetupAssemble [] (extractMacros "export const a = 1\nconst b = 2\n".toList).rawImports []
        "setup()".toList "    B".toList
        (extractMacros "export const a = 1\nconst b = 2\n".toList).rawExports
      = fromScriptSetupAssemble [] (extractMacros "export const a = 1\nconst b = 2\n".toList).rawImports []
          "setup()".toList "    B".toList []
        ++ "\n\n".toList
        ++ joinSep "\n".toList (extractMacros "export const a = 1\nconst b = 2\n".toList).rawExports :=
  ⟨by decide,
    (c9_exports_after_component "export const a = 1\nconst b = 2\n".toList [] "setup()".toList
      "    B".toList [] (by decide)).1⟩

theorem buildParts_length (render : TNode → JsxContext → List Char × JsxContext) :
    ∀ (bs : List Branch) (ctx : JsxContext),
      (buildParts bs ctx render).1.length = bs.length := by
  intro bs
  induction bs with
  | nil => intro ctx; simp [buildParts]
  | cons b rest ih =>
    intro ctx
    cases rest with
    | nil =>
      rw [buildParts]
      cases b.condition <;> simp
    | cons b2 t =>
      rw [buildParts]
      on_goal 2 => simp
      cases b.condition <;> simp [ih]

theorem buildParts_count (render : TNode → JsxContext → List Char × JsxContext)
    (hr : ∀ n c, ((render n c).1.count '?') = 0) :
    ∀ (bs : List Branch) (ctx : JsxContext),
      (∀ b ∈ bs, (condStr b.condition).count '?' = 0) →
      ((buildParts bs ctx render).1.map (fun t => t.count '?')).sum
        = (bs.filter (fun b => b.condition.isSome)).length := by
  have hq1 : (" ? ".toList.count '?') = 1 := by decide
  have hq2 : (" : null".toList.count '?') = 0 := by decide
  intro bs
  induction bs with
  | nil => intro ctx _; simp [buildParts]
  | cons b rest ih =>
    intro ctx hc
    have hcb : (condStr b.condition).count '?' = 0 := hc b (by simp)
    cases rest with
    | nil =>
      rw [buildParts]
      rcases hb : b.condition with _ | c
      · simp [hr, List.filter_cons, hb]
      · rw [hb] at hcb
        simp only [condStr] at hcb
        simp [List.count_append, hr, hcb, hq1, hq2, List.filter_cons, hb]
    | cons b2 t =>
      rw [buildParts]
      on_goal 2 => simp
      have ihr := ih (render b.node ctx).2 (fun x hx => hc x (List.mem_cons_of_mem _ hx))
      rcases hb : b.condition with _ | c
      · simp only [List.map_cons, List.sum_cons, ihr]
        simp [hr, List.filter_cons, hb]
      · rw [hb] at hcb
        simp only [condStr] at hcb
        simp only [List.map_cons, List.sum_cons, ihr]
        simp [List.count_append, hr, hcb, hq1, List.filter_cons, hb]
        omega

theorem buildParts_getLast (render : TNode → JsxContext → List Char × JsxContext) :
    ∀ (bs : List Branch) (ctx : JsxContext) (b : Branch), bs.getLast? = some b →
      ∃ c', (buildParts bs ctx render).1.getLast?
        = some (match b.condition with
            | none => (render b.node c').1
            | some c => c ++ " ? ".toList ++ (render b.node c').1 ++ " : null".toList) := by
  intro bs
  induction bs with
  | nil => intro ctx b h; simp at h
  | cons b0 rest ih =>
    intro ctx b h
    cases rest with
    | nil =>
      simp only [List.getLast?_singleton, Option.some.injEq] at h
      refine ⟨ctx, ?_⟩
      rw [← h, buildParts]
      rcases hb : b0.condition with _ | c <;> simp [hb]
    | cons b2 t =>
      rw [List.getLast?_cons_cons] at h
      obtain ⟨c', hc'⟩ := ih (render b0.node ctx).2 b h
      refine ⟨c', ?_⟩
      rw [buildParts]
      on_goal 2 => simp
      cases hb0 : b0.condition <;>
        exact Option.mem_def.mp (List.mem_getLast?_cons (Option.mem_def.mpr hc'))

theorem joinSep_getLast_two (sep : List Char) :
    ∀ (xs : List (List Char)) (y : List Char), xs.getLast? = some y → 2 ≤ xs.length →
      ∃ pre, joinSep sep xs = pre ++ sep ++ y := by
  intro xs
  induction xs with
  | nil => intro y h; simp at h
  | cons x rest ih =>
    intro y h hlen
    cases rest with
    | nil => simp at hlen
    | cons x2 t =>
      rw [List.getLast?_cons_cons] at h
      cases t with
      | nil =>
        simp only [List.getLast?_singleton, Option.some.injEq] at h
        subst h
        exact ⟨x, by simp [joinSep]⟩
      | cons x3 t2 =>
        obtain ⟨pre, hpre⟩ := ih y h (by simp)
        refine ⟨x ++ sep ++ pre, ?_⟩
        rw [joinSep]
        on_goal 2 => simp
        rw [hpre]
        simp [List.append_assoc]

theorem buildTernary_count (render : TNode → JsxContext → List Char × JsxContext)
    (hr : ∀ n c, ((render n c).1.count '?') = 0)
    (bs : List Branch) (ctx : JsxContext) (b0 : Branch)
    (hh : bs.head? = some b0) (hs : b0.condition.isSome)
    (hc : ∀ b ∈ bs, (condStr b.condition).count '?' = 0) :
    ((buildTernary bs ctx render).1).count '?'
      = (bs.filter (fun b => b.condition.isSome)).length := by
  cases bs with
  | nil => simp at hh
  | cons b rest =>
    simp only [List.head?_cons, Option.some.injEq] at hh
    subst hh
    cases rest with
    | nil =>
      rw [buildTernary]
      obtain ⟨c, hcnd⟩ := Option.isSome_iff_exists.mp hs
      have hcb := hc b (by simp)
      rw [hcnd] at hcb
      simp only [condStr] at hcb
      simp [condStr, hcnd, List.count_append, hr, hcb, List.filter_cons, hs]
    | cons b2 t =>
      rw [buildTernary]
      on_goal 2 => simp
      rw [joinSep_count " : ".toList '?' (by decide)]
      exact buildParts_count render hr _ _ hc

theorem buildTernary_else_ending (render : TNode → JsxContext → List Char × JsxContext)
    (bs : List Branch) (ctx : JsxContext) (b : Branch)
    (hl : bs.getLast? = some b) (hb : b.condition = none) (hlen : 2 ≤ bs.length) :
    ∃ pre c', (buildTernary bs ctx render).1
      = pre ++ " : ".toList ++ (render b.node c').1 := by
  cases bs with
  | nil => simp at hl
  | cons b1 rest =>
    cases rest with
    | nil => simp at hlen
    | cons b2 t =>
      obtain ⟨c', hc'⟩ := buildParts_getLast render (b1 :: b2 :: t) ctx b hl
      rw [hb] at hc'
      have hplen := buildParts_length render (b1 :: b2 :: t) ctx
      obtain ⟨pre, hpre⟩ := joinSep_getLast_two " : ".toList _ _ hc' (by rw [hplen]; simpa using hlen)
      refine ⟨pre, c', ?_⟩
      rw [buildTernary]
      on_goal 2 => simp
      exact hpre

theorem buildTernary_noelse_ending (render : TNode → JsxContext → List Char × JsxContext)
    (bs : List Branch) (ctx : JsxContext) (b : Branch) (c : List Char)
    (hl : bs.getLast? = some b) (hb : b.condition = some c) :
    ∃ pre, (buildTernary bs ctx render).1 = pre ++ " : null".toList := by
  cases bs with
  | nil => simp at hl
  | cons b1 rest =>
    cases rest with
    | nil =>
      simp only [List.getLast?_singleton, Option.some.injEq] at hl
      refine ⟨condStr b1.condition ++ " ? ".toList ++ (render b1.node ctx).1, ?_⟩
      simp [buildTernary, List.append_assoc]
    | cons b2 t =>
      obtain ⟨c', hc'⟩ := buildParts_getLast render (b1 :: b2 :: t) ctx b hl
      rw [hb] at hc'
      obtain ⟨pre, hpre⟩ := joinSep_getLast " : ".toList _ _ hc'
      refine ⟨pre ++ c ++ " ? ".toList ++ (render b.node c').1, ?_⟩
      rw [buildTernary]
      on_goal 2 => simp
      rw [hpre]
      simp [List.append_assoc]

/-- C2: for every conditional chain reconstructed from a v-if element and its
following v-else-if/v-else siblings, the generated output is a brace-wrapped
ternary chain whose number of `?` tokens (one per `? :` pair, the branch
renderings themselves being `?`-free) equals the number of condition-bearing
branches; a trailing else branch appears as the final alternative preceded by
only a bare ` : ` separator (no `? :` of its own), and when the last branch
carries a condition the chain ends in the literal ` : null` alternative. -/
theorem c2_conditional_chain
    (siblings : List TNode) (startIndex : Nat) (ctx : JsxContext)
    (render : TNode → JsxContext → List Char × JsxContext)
    (hr : ∀ n c, ((render n c).1.count '?') = 0)
    (tag : List Char) (props : List PropN) (children : List TNode) (rest : List TNode)
    (hdrop : siblings.drop startIndex = TNode.element tag props children :: rest)
    (d : DirectiveN) (hd : findDirective props "if".toList = some d)
    (cc : List Char × JsxContext)
    (hcc : cc = match d.exp with
      | some e => rewriteTemplateGlobals e ctx
      | none => ("true".toList, ctx))
    (bs : List Branch)
    (hbs : bs = ({ condition := some cc.1, node := TNode.element tag props children } : Branch)
      :: (scanElse rest cc.2).1)
    (hc : ∀ b ∈ bs, (condStr b.condition).count '?' = 0) :
    ∃ t ctx2, processConditionalChain siblings startIndex ctx render
        = some ("\x7b".toList ++ t ++ "\x7d".toList, 1 + (scanElse rest cc.2).2.1, ctx2) ∧
      t.count '?' = (bs.filter (fun b => b.condition.isSome)).length ∧
      (∀ b, bs.getLast? = some b → b.condition = none →
        ∃ pre c', t = pre ++ " : ".toList ++ (render b.node c').1) ∧
      (∀ b cnd, bs.getLast? = some b → b.condition = some cnd →
        ∃ pre, t = pre ++ " : null".toList) := by
  refine ⟨(buildTernary bs (scanElse rest cc.2).2.2 render).1,
    (buildTernary bs (scanElse rest cc.2).2.2 render).2, ?_, ?_, ?_, ?_⟩
  · simp only [processConditionalChain, hdrop, hd]
    rw [← hcc, ← hbs]
  · exact buildTernary_count render hr bs _
      ({ condition := some cc.1, node := TNode.element tag props children } : Branch)
      (by rw [hbs]; rfl) (by simp) hc
  · intro b hlast hnone
    have hlen : 2 ≤ bs.length := by
      rw [hbs]
      cases hsc : (scanElse rest cc.2).1 with
      | nil =>
        rw [hbs, hsc] at hlast
        simp only [List.getLast?_singleton, Option.some.injEq] at hlast
        rw [← hlast] at hnone
        simp at hnone
      | cons x xs => simp
    exact buildTernary_else_ending render bs _ b hlast hnone hlen
  · intro b cnd hlast hsome
    exact buildTernary_noelse_ending render bs _ b cnd hlast hsome

theorem c2_conditional_chain_witness :
    (∀ n c, (((fun (_ : TNode) (c0 : JsxContext) => ("<x/>".toList, c0)) n c).1.count '?') = 0) ∧
    ∃ t ctx2,
      processConditionalChain
          [TNode.element "div".toList [PropN.dir ⟨"if".toList, none, some "show".toList, []⟩] [],
           TNode.element "p".toList [PropN.dir ⟨"else".toList, none, none, []⟩] []]
          0 ⟨[], [], [], []⟩ (fun (_ : TNode) (c0 : JsxContext) => ("<x/>".toList, c0))
        = some ("\x7b".toList ++ t ++ "\x7d".toList,
            1 + (scanElse [TNode.element "p".toList [PropN.dir ⟨"else".toList, none, none, []⟩] []]
              (rewriteTemplateGlobals "show".toList ⟨[], [], [], []⟩).2).2.1, ctx2) ∧
      t.count '?'
        = ((({ condition := some (rewriteTemplateGlobals "show".toList ⟨[], [], [], []⟩).1,
               node := TNode.element "div".toList
                [PropN.dir ⟨"if".toList, none, some "show".toList, []⟩] [] } : Branch)
            :: (scanElse [TNode.element "p".toList [PropN.dir ⟨"else".toList, none, none, []⟩] []]
              (rewriteTemplateGlobals "show".toList ⟨[], [], [], []⟩).2).1).filter
            (fun b => b.condition.isSome)).length ∧
      (∀ b, ((({ condition := some (rewriteTemplateGlobals "show".toList ⟨[], [], [], []⟩).1,
                 node := TNode.element "div".toList
                   [PropN.dir ⟨"if".toList, none, some "show".toList, []⟩] [] } : Branch)
            :: (scanElse [TNode.element "p".toList [PropN.dir ⟨"else".toList, none, none, []⟩] []]
              (rewriteTemplateGlobals "show".toList ⟨[], [], [], []⟩).2).1)).getLast? = some b →
        b.condition = none →
        ∃ pre c', t = pre ++ " : ".toList
          ++ (((fun (_ : TNode) (c0 : JsxContext) => ("<x/>".toList, c0))) b.node c').1) ∧
      (∀ b cnd, ((({ condition := some (rewriteTemplateGlobals "show".toList ⟨[], [], [], []⟩).1,
                     node := TNode.element "div".toList
                       [PropN.dir ⟨"if".toList, none, some "show".toList, []⟩] [] } : Branch)
            :: (scanElse [TNode.element "p".toList [PropN.dir ⟨"else".toList, none, none, []⟩] []]
              (rewriteTemplateGlobals "show".toList ⟨[], [], [], []⟩).2).1)).getLast? = some b →
        b.condition = some cnd →
        ∃ pre, t = pre ++ " : null".toList) :=
  ⟨fun _ _ => (by decide : List.count '?' "<x/>".toList = 0),
    c2_conditional_chain
      [TNode.element "div".toList [PropN.dir ⟨"if".toList, none, some "show".toList, []⟩] [],
       TNode.element "p".toList [PropN.dir ⟨"else".toList, none, none, []⟩] []]
      0 ⟨[], [], [], []⟩ (fun (_ : TNode) (c0 : JsxContext) => ("<x/>".toList, c0))
      (fun _ _ => (by decide : List.count '?' "<x/>".toList = 0))
      "div".toList [PropN.dir ⟨"if".toList, none, some "show".toList, []⟩] []
      [TNode.element "p".toList [PropN.dir ⟨"else".toList, none, none, []⟩] []]
      rfl
      ⟨"if".toList, none, some "show".toList, []⟩ rfl
      (rewriteTemplateGlobals "show".toList ⟨[], [], [], []⟩) rfl
      _ rfl
      (by decide)⟩
